import Mathlib

/-!
Verification development for the mod-eluna timed-event scheduler
(`src/LuaEngine/ALEEventMgr.cpp`) and the loot binding methods
(`src/LuaEngine/methods/LootMethods.h`).

The scheduler is embedded shallowly: the C++ `std::multimap<uint64, LuaEvent*>`
`eventList` becomes a key-sorted list of `(dueTime, eventId)` pairs, the
`std::unordered_map<int, LuaEvent*>` `eventMap` becomes an association list
from callback handles to event ids, and the heap-allocated `LuaEvent` objects
(aliased by both containers through raw pointers) become an association list
from event ids to `LuaEvent` records.  Observable interactions with the host
(callback invocation via `OnTimedEvent`, reference release via `luaL_unref`)
are collected in an effect trace; the `invoke` effect additionally records the
event id and the due time of the popped entry as ghost data so that theorems
can speak about which scheduled instance fired and when it was due.

The class declaration of `LuaEvent` lives in the header `ALEEventMgr.h`, which
is not part of the provided sources; its members (`GenerateDelay`, `SetState`,
the constructor) are modelled from the specification, as indicated at each
definition.  Randomness in `GenerateDelay` is modelled by an oracle function
`rand : Nat → Nat → Nat → Nat` carried by the `Host` record; it receives a
fresh counter value (`seed`) at every draw, so a universally quantified oracle
covers every realization of the randomness.
-/

set_option maxHeartbeats 1000000

namespace ModEluna

/-- State of a scheduled event, mirroring `LuaEventState`
(`LUAEVENT_STATE_RUN`, `LUAEVENT_STATE_ABORT`, `LUAEVENT_STATE_ERASE`) as
used by `ALEEventMgr.cpp`. -/
inductive LuaEventState where
  | RUN
  | ABORT
  | ERASE
deriving DecidableEq, Repr

/-- Modelled from the spec: the `LuaEvent` record of §3 (TimedEvent), declared
in the missing header `ALEEventMgr.h`.  Fields: callback handle `funcRef`,
inclusive delay bounds `min`/`max`, remaining repeat count `repeats`
(0 means repeat indefinitely), `state`, and the concretely drawn `delay`. -/
structure LuaEvent where
  funcRef : Int
  min : Nat
  max : Nat
  repeats : Nat
  state : LuaEventState
  delay : Nat
deriving DecidableEq, Repr

/-- Modelled from the spec: `LuaEvent::SetState`, declared in the missing
header `ALEEventMgr.h`.  §4.2 lists the transitions `RUN → ABORT`,
`RUN → ERASE` and `ABORT → ERASE` and none out of `ERASE`, so a state set is
ignored once the event is in state `ERASE`. -/
def LuaEvent.SetState (e : LuaEvent) (s : LuaEventState) : LuaEvent :=
  if e.state = .ERASE then e else { e with state := s }

/-- Observable (and ghost) interactions with the host interpreter during a
drain.  `invoke id funcRef due delay rep` records the `OnTimedEvent` call made
for the event object `id` (ghost), popped from the queue at due time `due`
(ghost), passing the handle, the delay that elapsed and the repeat indicator.
`release id funcRef` records the `luaL_unref` call for the handle. -/
inductive Effect where
  | invoke (id : Nat) (funcRef : Int) (due : Nat) (delay : Nat) (rep : Nat)
  | release (id : Nat) (funcRef : Int)
deriving DecidableEq, Repr

/-- Event id (ghost allocation identity) an effect concerns. -/
def Effect.idOf : Effect → Nat
  | .invoke i _ _ _ _ => i
  | .release i _ => i

/-- Tests whether an effect is an `OnTimedEvent` call for the given event id. -/
def isInvokeOf (id : Nat) : Effect → Bool
  | .invoke i _ _ _ _ => i == id
  | .release _ _ => false

/-- Tests whether an effect is a reference release for the given event id. -/
def isReleaseOf (id : Nat) : Effect → Bool
  | .release i _ => i == id
  | .invoke _ _ _ _ _ => false

/-- Tests whether an effect concerns the given event id at all. -/
def hasId (id : Nat) (x : Effect) : Bool := x.idOf == id

/-- Due times (ghost) of the `invoke` effects of a trace, in trace order. -/
def invokeDues (E : List Effect) : List Nat :=
  E.filterMap fun x => match x with
    | .invoke _ _ t _ _ => some t
    | .release _ _ => none

/-- Repeat indicators of the `invoke` effects of a trace, in trace order. -/
def invokeReps (E : List Effect) : List Nat :=
  E.filterMap fun x => match x with
    | .invoke _ _ _ _ r => some r
    | .release _ _ => none

section Assoc

variable {K V : Type} [DecidableEq K]

/-- Lookup in an association list, modelling `std::unordered_map::find` /
`operator[]` reads (and the dereference of a stored `LuaEvent*`). -/
def afind : List (K × V) → K → Option V
  | [], _ => none
  | (a, b) :: t, k => if a = k then some b else afind t k

/-- Insert-or-assign on an association list, modelling
`std::unordered_map::operator[] = v` (and an in-place update of a heap
object through its pointer). -/
def aset : List (K × V) → K → V → List (K × V)
  | [], k, v => [(k, v)]
  | (a, b) :: t, k, v => if a = k then (k, v) :: t else (a, b) :: aset t k v

/-- Erase-by-key on an association list, modelling
`std::unordered_map::erase(key)` (and `delete` of a heap object). -/
def aerase : List (K × V) → K → List (K × V)
  | [], _ => []
  | (a, b) :: t, k => if a = k then aerase t k else (a, b) :: aerase t k

@[simp] theorem afind_nil (k : K) : afind ([] : List (K × V)) k = none := rfl

@[simp] theorem aerase_nil (k : K) : aerase ([] : List (K × V)) k = [] := rfl

theorem mem_of_afind_eq_some {l : List (K × V)} {k : K} {v : V}
    (h : afind l k = some v) : (k, v) ∈ l := by
  induction l with
  | nil => simp [afind] at h
  | cons x t ih =>
    obtain ⟨a, b⟩ := x
    rw [afind] at h
    by_cases hx : a = k
    · subst hx
      rw [if_pos rfl] at h
      injection h with h
      subst h
      exact List.mem_cons_self _ _
    · rw [if_neg hx] at h
      exact List.mem_cons_of_mem _ (ih h)

theorem afind_eq_none_iff {l : List (K × V)} {k : K} :
    afind l k = none ↔ k ∉ l.map Prod.fst := by
  induction l with
  | nil => simp [afind]
  | cons x t ih =>
    obtain ⟨a, b⟩ := x
    rw [afind, List.map_cons, List.mem_cons]
    by_cases hx : a = k
    · subst hx
      simp
    · rw [if_neg hx, ih]
      constructor
      · intro h1 h2
        rcases h2 with h2 | h2
        · exact hx h2.symm
        · exact h1 h2
      · intro h1 h2
        exact h1 (Or.inr h2)

theorem afind_of_mem_nodup {l : List (K × V)} {k : K} {v : V}
    (hnd : (l.map Prod.fst).Nodup) (h : (k, v) ∈ l) : afind l k = some v := by
  induction l with
  | nil => simp at h
  | cons x t ih =>
    obtain ⟨a, b⟩ := x
    simp only [List.map_cons, List.nodup_cons] at hnd
    rcases List.mem_cons.1 h with h1 | h1
    · injection h1 with h1a h1b
      subst h1a; subst h1b
      simp [afind]
    · have hk : a ≠ k := by
        intro he
        subst he
        exact hnd.1 (List.mem_map.2 ⟨(a, v), h1, rfl⟩)
      simp [afind, hk, ih hnd.2 h1]

@[simp] theorem afind_aset_self (l : List (K × V)) (k : K) (v : V) :
    afind (aset l k v) k = some v := by
  induction l with
  | nil => simp [aset, afind]
  | cons x t ih =>
    obtain ⟨a, b⟩ := x
    by_cases hx : a = k <;> simp [aset, afind, hx, ih]

theorem afind_aset_ne (l : List (K × V)) {a k : K} (v : V) (h : a ≠ k) :
    afind (aset l k v) a = afind l a := by
  have hk : k ≠ a := fun he => h he.symm
  induction l with
  | nil => simp [aset, afind, hk]
  | cons x t ih =>
    obtain ⟨c, d⟩ := x
    by_cases hc : c = k
    · have hca : ¬c = a := by rw [hc]; exact hk
      simp [aset, afind, hc, hca, hk, h]
    · by_cases ha : c = a
      · simp [aset, afind, hc, ha, h]
      · simp [aset, afind, hc, ha, h, ih]

@[simp] theorem afind_aerase_self (l : List (K × V)) (k : K) :
    afind (aerase l k) k = none := by
  induction l with
  | nil => simp
  | cons x t ih =>
    obtain ⟨a, b⟩ := x
    by_cases hx : a = k <;> simp [aerase, afind, hx, ih]

theorem afind_aerase_ne (l : List (K × V)) {a k : K} (h : a ≠ k) :
    afind (aerase l k) a = afind l a := by
  induction l with
  | nil => simp
  | cons x t ih =>
    obtain ⟨c, d⟩ := x
    by_cases hc : c = k
    · have hca : ¬c = a := by rw [hc]; exact fun he => h he.symm
      simp [aerase, afind, hc, hca, Ne.symm h, ih]
    · by_cases ha : c = a
      · simp [aerase, afind, hc, ha, h, Ne.symm h]
      · simp [aerase, afind, hc, ha, h, Ne.symm h, ih]

theorem mem_aerase_iff {l : List (K × V)} {k : K} {y : K × V} :
    y ∈ aerase l k ↔ y ∈ l ∧ y.1 ≠ k := by
  induction l with
  | nil => simp
  | cons x t ih =>
    obtain ⟨c, d⟩ := x
    rw [aerase]
    by_cases hc : c = k
    · rw [if_pos hc, ih, List.mem_cons]
      constructor
      · rintro ⟨h1, h2⟩
        exact ⟨Or.inr h1, h2⟩
      · rintro ⟨h1 | h1, h2⟩
        · exact absurd (by rw [h1]; exact hc) h2
        · exact ⟨h1, h2⟩
    · rw [if_neg hc, List.mem_cons, List.mem_cons, ih]
      constructor
      · rintro (rfl | ⟨h1, h2⟩)
        · exact ⟨Or.inl rfl, hc⟩
        · exact ⟨Or.inr h1, h2⟩
      · rintro ⟨rfl | h1, h2⟩
        · exact Or.inl rfl
        · exact Or.inr ⟨h1, h2⟩

theorem aerase_eq_self_of_not_mem {l : List (K × V)} {k : K}
    (h : k ∉ l.map Prod.fst) : aerase l k = l := by
  induction l with
  | nil => rfl
  | cons x t ih =>
    obtain ⟨a, b⟩ := x
    simp only [List.map_cons, List.mem_cons, not_or] at h
    have hx : a ≠ k := fun he => h.1 he.symm
    simp [aerase, hx, ih h.2]

theorem keys_aerase_sublist (l : List (K × V)) (k : K) :
    List.Sublist ((aerase l k).map Prod.fst) (l.map Prod.fst) := by
  induction l with
  | nil => simp
  | cons x t ih =>
    obtain ⟨a, b⟩ := x
    by_cases hx : a = k
    · simpa [aerase, hx] using ih.trans (List.sublist_cons_self _ _)
    · simpa [aerase, hx] using ih.cons₂ a

theorem keys_aerase_nodup {l : List (K × V)} (k : K)
    (h : (l.map Prod.fst).Nodup) : ((aerase l k).map Prod.fst).Nodup :=
  (keys_aerase_sublist l k).nodup h

theorem mem_aset_iff {l : List (K × V)} {k : K} {v : V} {y : K × V}
    (hnd : (l.map Prod.fst).Nodup) :
    y ∈ aset l k v ↔ (y.1 ≠ k ∧ y ∈ l) ∨ y = (k, v) := by
  induction l with
  | nil =>
    simp only [aset, List.mem_singleton, List.not_mem_nil, and_false, false_or]
  | cons x t ih =>
    obtain ⟨c, d⟩ := x
    simp only [List.map_cons, List.nodup_cons] at hnd
    rw [aset]
    by_cases hc : c = k
    · rw [if_pos hc, List.mem_cons, List.mem_cons]
      constructor
      · rintro (rfl | h1)
        · exact Or.inr rfl
        · refine Or.inl ⟨?_, Or.inr h1⟩
          intro he
          apply hnd.1
          rw [hc, ← he]
          exact List.mem_map.2 ⟨y, h1, rfl⟩
      · rintro (⟨h1, h2⟩ | rfl)
        · rcases h2 with h2 | h2
          · exact absurd (by rw [h2]; exact hc) h1
          · exact Or.inr h2
        · exact Or.inl rfl
    · rw [if_neg hc, List.mem_cons, List.mem_cons, ih hnd.2]
      constructor
      · rintro (rfl | ⟨h1, h2⟩ | rfl)
        · exact Or.inl ⟨hc, Or.inl rfl⟩
        · exact Or.inl ⟨h1, Or.inr h2⟩
        · exact Or.inr rfl
      · rintro (⟨h1, rfl | h2⟩ | rfl)
        · exact Or.inl rfl
        · exact Or.inr (Or.inl ⟨h1, h2⟩)
        · exact Or.inr (Or.inr rfl)

theorem keys_aset_nodup {l : List (K × V)} {k : K} {v : V}
    (hnd : (l.map Prod.fst).Nodup) : ((aset l k v).map Prod.fst).Nodup := by
  induction l with
  | nil => simp [aset]
  | cons x t ih =>
    obtain ⟨c, d⟩ := x
    simp only [List.map_cons, List.nodup_cons] at hnd
    rw [aset]
    by_cases hc : c = k
    · rw [if_pos hc]
      simp only [List.map_cons, List.nodup_cons]
      refine ⟨?_, hnd.2⟩
      rw [← hc]
      exact hnd.1
    · rw [if_neg hc]
      simp only [List.map_cons, List.nodup_cons]
      refine ⟨?_, ih hnd.2⟩
      intro hmem
      rcases List.mem_map.1 hmem with ⟨y, hy, hyk⟩
      rcases (mem_aset_iff hnd.2).1 hy with ⟨_, h2⟩ | rfl
      · exact hnd.1 (hyk ▸ List.mem_map.2 ⟨y, h2, rfl⟩)
      · exact hc hyk.symm

theorem mem_aset_self (l : List (K × V)) (k : K) (v : V) : (k, v) ∈ aset l k v :=
  mem_of_afind_eq_some (afind_aset_self l k v)

theorem mem_val_nodup_eq {l : List (K × V)} (hnd : (l.map Prod.fst).Nodup)
    {k : K} {v v' : V} (h : (k, v) ∈ l) (h' : (k, v') ∈ l) : v = v' := by
  have h1 := afind_of_mem_nodup hnd h
  have h2 := afind_of_mem_nodup hnd h'
  rw [h1] at h2
  injection h2

theorem mem_aset_of_mem_ne {l : List (K × V)} {y : K × V} {k : K} (v : V)
    (h : y ∈ l) (hk : y.1 ≠ k) : y ∈ aset l k v := by
  induction l with
  | nil => simp at h
  | cons x t ih =>
    obtain ⟨c, d⟩ := x
    rw [aset]
    by_cases hc : c = k
    · rw [if_pos hc]
      rcases List.mem_cons.1 h with rfl | h1
      · exact absurd hc hk
      · exact List.mem_cons_of_mem _ h1
    · rw [if_neg hc]
      rcases List.mem_cons.1 h with rfl | h1
      · exact List.mem_cons_self _ _
      · exact List.mem_cons_of_mem _ (ih h1)

theorem mem_keys_aset_self (l : List (K × V)) (k : K) (v : V) :
    k ∈ (aset l k v).map Prod.fst :=
  List.mem_map.2 ⟨(k, v), mem_aset_self l k v, rfl⟩

theorem mem_keys_aset_of_mem {l : List (K × V)} {a k : K} (v : V)
    (h : a ∈ l.map Prod.fst) : a ∈ (aset l k v).map Prod.fst := by
  by_cases hak : a = k
  · rw [hak]
    exact mem_keys_aset_self l k v
  · rcases List.mem_map.1 h with ⟨y, hy, rfl⟩
    exact List.mem_map.2 ⟨y, mem_aset_of_mem_ne v hy hak, rfl⟩

theorem not_mem_keys_aerase_self (l : List (K × V)) (k : K) :
    k ∉ (aerase l k).map Prod.fst :=
  afind_eq_none_iff.1 (afind_aerase_self l k)

theorem mem_keys_aerase_of_ne {l : List (K × V)} {a k : K} (h : a ∈ l.map Prod.fst)
    (hak : a ≠ k) : a ∈ (aerase l k).map Prod.fst := by
  rcases List.mem_map.1 h with ⟨y, hy, rfl⟩
  exact List.mem_map.2 ⟨y, mem_aerase_iff.2 ⟨hy, hak⟩, rfl⟩

theorem mem_keys_of_mem_keys_aerase {l : List (K × V)} {a k : K}
    (h : a ∈ (aerase l k).map Prod.fst) : a ∈ l.map Prod.fst := by
  rcases List.mem_map.1 h with ⟨y, hy, rfl⟩
  exact List.mem_map.2 ⟨y, (mem_aerase_iff.1 hy).1, rfl⟩

theorem aset_aset (l : List (K × V)) (k : K) (v w : V) :
    aset (aset l k v) k w = aset l k w := by
  induction l with
  | nil => simp [aset]
  | cons x t ih =>
    obtain ⟨c, d⟩ := x
    rw [aset]
    by_cases hc : c = k
    · rw [if_pos hc]
      rw [aset, if_pos rfl, aset, if_pos hc]
    · rw [if_neg hc]
      rw [aset, if_neg hc, aset, if_neg hc, ih]

theorem aerase_aset_self (l : List (K × V)) (k : K) (v : V) :
    aerase (aset l k v) k = aerase l k := by
  induction l with
  | nil => simp [aset, aerase]
  | cons x t ih =>
    obtain ⟨c, d⟩ := x
    rw [aset]
    by_cases hc : c = k
    · rw [if_pos hc]
      rw [aerase, if_pos rfl, aerase, if_pos hc]
    · rw [if_neg hc]
      rw [aerase, if_neg hc, aerase, if_neg hc, ih]

theorem mem_keys_aset {l : List (K × V)} {k a : K} {v : V}
    (h : a ∈ (aset l k v).map Prod.fst) : a ∈ l.map Prod.fst ∨ a = k := by
  induction l with
  | nil => simpa [aset] using h
  | cons x t ih =>
    obtain ⟨c, d⟩ := x
    rw [aset] at h
    by_cases hc : c = k
    · rw [if_pos hc] at h
      simp only [List.map_cons, List.mem_cons] at h ⊢
      rcases h with rfl | h
      · exact Or.inr rfl
      · exact Or.inl (Or.inr h)
    · rw [if_neg hc] at h
      simp only [List.map_cons, List.mem_cons] at h ⊢
      rcases h with rfl | h
      · exact Or.inl (Or.inl rfl)
      · rcases ih h with h1 | h1
        · exact Or.inl (Or.inr h1)
        · exact Or.inr h1

end Assoc

/-- Ordered insertion into the due-time-sorted event list, modelling
`std::multimap::insert`: the new entry is placed after all entries with a key
less than or equal to its own (the position `insert` picks since C++11). -/
def insertSorted : List (Nat × Nat) → Nat → Nat → List (Nat × Nat)
  | [], k, v => [(k, v)]
  | x :: t, k, v => if x.1 ≤ k then x :: insertSorted t k v else (k, v) :: x :: t

theorem insertSorted_perm (l : List (Nat × Nat)) (k v : Nat) :
    List.Perm (insertSorted l k v) ((k, v) :: l) := by
  induction l with
  | nil => exact List.Perm.refl _
  | cons x t ih =>
    by_cases hx : x.1 ≤ k
    · simp only [insertSorted, if_pos hx]
      exact (ih.cons x).trans (List.Perm.swap _ _ _)
    · simp only [insertSorted, if_neg hx]
      exact List.Perm.refl _

theorem mem_insertSorted {l : List (Nat × Nat)} {k v : Nat} {y : Nat × Nat} :
    y ∈ insertSorted l k v ↔ y = (k, v) ∨ y ∈ l := by
  rw [(insertSorted_perm l k v).mem_iff, List.mem_cons]

/-- Key order on event-list entries: the relation the multimap keeps. -/
def keyLe (a b : Nat × Nat) : Prop := a.1 ≤ b.1

instance : DecidableRel keyLe := fun a b => inferInstanceAs (Decidable (a.1 ≤ b.1))

theorem pairwise_insertSorted {l : List (Nat × Nat)} {k v : Nat}
    (h : l.Pairwise keyLe) : (insertSorted l k v).Pairwise keyLe := by
  induction l with
  | nil => simp [insertSorted, List.pairwise_singleton]
  | cons x t ih =>
    rcases List.pairwise_cons.1 h with ⟨hx, ht⟩
    rw [insertSorted]
    by_cases hle : x.1 ≤ k
    · rw [if_pos hle, List.pairwise_cons]
      refine ⟨?_, ih ht⟩
      intro y hy
      rcases mem_insertSorted.1 hy with rfl | hy'
      · exact hle
      · exact hx y hy'
    · rw [if_neg hle, List.pairwise_cons]
      refine ⟨?_, h⟩
      intro y hy
      rcases List.mem_cons.1 hy with rfl | hy'
      · exact Nat.le_of_not_le hle
      · exact le_trans (Nat.le_of_not_le hle) (hx y hy')

/-- Host collaborator interface (§6): whether the runtime is initialized
(`ALE::IsInitialized`), whether an interpreter state exists
(`(*E)->HasLuaState()`), and the randomness oracle backing `urand` inside
`GenerateDelay` (fed a fresh counter value at every draw). -/
structure Host where
  initialized : Bool
  hasLuaState : Bool
  rand : Nat → Nat → Nat → Nat

/-- The per-owner event processor `ALEEventProcessor`: owner-local clock
`m_time`, allocation counter for event ids (`nextId`), draw counter for the
randomness oracle (`seed`), the live `LuaEvent` objects (`heap`, id-indexed,
standing for the C++ heap reachable through stored pointers), the
due-time-sorted `eventList`, and the handle index `eventMap`. -/
structure Processor where
  m_time : Nat
  nextId : Nat
  seed : Nat
  heap : List (Nat × LuaEvent)
  eventList : List (Nat × Nat)
  eventMap : List (Int × Nat)
deriving DecidableEq, Repr

/-- A processor with no events, clock zero: the state right after
`ALEEventProcessor`'s constructor ran. -/
def initProcessor : Processor :=
  { m_time := 0, nextId := 0, seed := 0, heap := [], eventList := [], eventMap := [] }

/-- Modelled from the spec: `LuaEvent::GenerateDelay` (missing header
`ALEEventMgr.h`); §4.1: draws the concrete delay from `[min, max]`.  The draw
is taken from the host's oracle at the processor's current draw counter, which
is then advanced. -/
def generateDelay (H : Host) (p : Processor) (e : LuaEvent) : LuaEvent × Processor :=
  ({ e with delay := H.rand p.seed e.min e.max }, { p with seed := p.seed + 1 })

/-- Translation of `ALEEventProcessor::AddEvent(LuaEvent*)`: regenerates the
delay of the (already allocated) event object `id`, inserts it into
`eventList` keyed by `m_time + delay`, and maps its handle to it in
`eventMap`. -/
def AddEventObj (H : Host) (p : Processor) (id : Nat) (e : LuaEvent) : Processor :=
  let ge := generateDelay H p e
  { ge.2 with
    heap := aset ge.2.heap id ge.1
    eventList := insertSorted ge.2.eventList (ge.2.m_time + ge.1.delay) id
    eventMap := aset ge.2.eventMap ge.1.funcRef id }

/-- Translation of `ALEEventProcessor::AddEvent(int, uint32, uint32, uint32)`:
allocates a fresh `LuaEvent(funcRef, min, max, repeats)` (state `RUN`, spec
§4.2) and schedules it via `AddEventObj`. -/
def AddEvent (H : Host) (p : Processor) (funcRef : Int) (min max repeats : Nat) :
    Processor :=
  AddEventObj H { p with nextId := p.nextId + 1 } p.nextId
    { funcRef := funcRef, min := min, max := max, repeats := repeats,
      state := .RUN, delay := 0 }

/-- Translation of `ALEEventProcessor::SetState(int, LuaEventState)`: if the
handle is found in `eventMap`, set the state of the event it points to; if the
requested state is `ERASE`, additionally erase the handle from `eventMap`. -/
def SetState (p : Processor) (eventId : Int) (s : LuaEventState) : Processor :=
  let p1 :=
    match afind p.eventMap eventId with
    | some id =>
      match afind p.heap id with
      | some e => { p with heap := aset p.heap id (e.SetState s) }
      | none => p
    | none => p
  if s = .ERASE then { p1 with eventMap := aerase p1.eventMap eventId } else p1

/-- Helper for `SetStates`: walks the event list and applies
`LuaEvent::SetState` to each event object it points to. -/
def setStatesAux (s : LuaEventState) :
    List (Nat × Nat) → List (Nat × LuaEvent) → List (Nat × LuaEvent)
  | [], h => h
  | a :: t, h =>
    setStatesAux s t
      (match afind h a.2 with
       | some e => aset h a.2 (e.SetState s)
       | none => h)

/-- Translation of `ALEEventProcessor::SetStates(LuaEventState)`: applies the
state to every event reachable from `eventList`, then clears `eventMap`
entirely when the state is `ERASE`. -/
def SetStates (p : Processor) (s : LuaEventState) : Processor :=
  let h := setStatesAux s p.eventList p.heap
  if s = .ERASE then { p with heap := h, eventMap := [] }
  else { p with heap := h }

/-- Translation of `ALEEventProcessor::RemoveEvent(LuaEvent*)`: releases the
callback reference (`luaL_unref`) unless the event is in state `ERASE` or the
host runtime is gone, then deletes the object. -/
def RemoveEvent (H : Host) (p : Processor) (id : Nat) (e : LuaEvent) :
    Processor × List Effect :=
  ({ p with heap := aerase p.heap id },
   if e.state ≠ .ERASE ∧ H.initialized = true ∧ H.hasLuaState = true then
     [.release id e.funcRef]
   else [])

/-- One iteration of the drain loop body of `ALEEventProcessor::Update`, for
the entry `(t, id)` (already split off the front of `eventList`; `rest` is the
remainder) whose event object is `e`:
erase the entry from `eventList`; erase the handle from `eventMap` unless the
state is `ERASE`; if the state is `RUN`, save the delay, decide removal
(`repeats == 1`), reschedule via `AddEventObj` when not removing (before the
callback runs), emit the `OnTimedEvent` call with the pre-decrement repeat
count and decrement `repeats` when nonzero; finally `RemoveEvent` unless the
event was rescheduled. -/
def step (H : Host) (p : Processor) (t id : Nat) (e : LuaEvent)
    (rest : List (Nat × Nat)) : Processor × List Effect :=
  let p1 := { p with eventList := rest }
  let p2 :=
    if e.state ≠ .ERASE then { p1 with eventMap := aerase p1.eventMap e.funcRef }
    else p1
  if e.state = .RUN then
    let delay := e.delay
    let remove := e.repeats = 1
    let p3 := if remove then p2 else AddEventObj H p2 id e
    let p4 :=
      if e.repeats ≠ 0 then
        { p3 with
          heap :=
            match afind p3.heap id with
            | some e' => aset p3.heap id { e' with repeats := e'.repeats - 1 }
            | none => p3.heap }
      else p3
    if remove then
      let r := RemoveEvent H p4 id e
      (r.1, .invoke id e.funcRef t delay e.repeats :: r.2)
    else
      (p4, [.invoke id e.funcRef t delay e.repeats])
  else
    let r := RemoveEvent H p2 id e
    (r.1, r.2)

/-- The drain loop of `ALEEventProcessor::Update`, fuel-indexed: while the
front entry of `eventList` is due (`dueTime ≤ m_time`), pop it and run `step`.
The C++ loop needs no fuel; here fuel merely bounds the number of iterations,
and every theorem either supplies enough fuel for the loop to reach its
guard-failure exit or evaluates a concrete run. -/
def updateLoop (H : Host) : Nat → Processor → Processor × List Effect
  | 0, p => (p, [])
  | fuel + 1, p =>
    match p.eventList with
    | [] => (p, [])
    | (t, id) :: rest =>
      if t ≤ p.m_time then
        match afind p.heap id with
        | some e =>
          let s := step H p t id e rest
          let r := updateLoop H fuel s.1
          (r.1, s.2 ++ r.2)
        | none => (p, [])
      else (p, [])

/-- Fuel budget for one drain: number of queued entries plus the sum of all
remaining repeat counts.  Whenever the C++ loop terminates and every
repeat-indefinitely event has a positive delay, this many iterations reach the
loop's guard-failure exit. -/
def drainFuel (p : Processor) : Nat :=
  p.eventList.length + (p.heap.map fun x => x.2.repeats).sum

/-- Translation of `ALEEventProcessor::Update(uint32)`: advance `m_time` by
the elapsed time, then drain due entries. -/
def Update (H : Host) (diff : Nat) (p : Processor) : Processor × List Effect :=
  let p' := { p with m_time := p.m_time + diff }
  updateLoop H (drainFuel p') p'

/-- Runs `n` successive drains of `diff` each, concatenating the traces. -/
def drainN (H : Host) (diff : Nat) : Nat → Processor → Processor × List Effect
  | 0, p => (p, [])
  | n + 1, p =>
    ((drainN H diff n (Update H diff p).1).1,
     (Update H diff p).2 ++ (drainN H diff n (Update H diff p).1).2)

/-- A concrete host used by closed scenarios: initialized, live interpreter
state, and a randomness oracle always answering the lower bound. -/
def H0 : Host := { initialized := true, hasLuaState := true, rand := fun _ a _ => a }

/-- Modelled from the spec: the host's `LootItem` as read and written by
`LootMethods.h` (fields `itemid`, `count`, `itemIndex`, `needs_quest`,
`is_looted` are the ones the methods touch).  The `count` field is an 8-bit
quantity in the host, so additions into it wrap modulo 256; the operations
below keep it below 256. -/
structure LootItem where
  itemid : Nat
  count : Nat
  itemIndex : Nat
  needs_quest : Bool
  is_looted : Bool
deriving DecidableEq, Repr

/-- Modelled from the spec: the host's `LootStoreItem` as constructed by
`LuaLoot::AddItem` with arguments
`(itemid, 0, chance, needs_quest, loot_mode, 0, min_count, max_count)`;
the chance is carried opaquely (it is a float in the host and is only passed
through, never computed with). -/
structure LootStoreItem (α : Type) where
  itemid : Nat
  reference : Nat
  chance : α
  needs_quest : Bool
  lootmode : Nat
  groupid : Nat
  mincount : Nat
  maxcount : Nat
deriving DecidableEq, Repr

namespace LuaLoot

/-- The search-and-bump loop of `LuaLoot::AddItem`: returns the updated item
list when some entry has the requested id and a count below 255 (the first
such entry gets `min_count` added to its 8-bit count and the function
returns), and `none` when the loop runs off the end. -/
def AddItemLoop (itemid minCount : Nat) : List LootItem → Option (List LootItem)
  | [] => none
  | x :: xs =>
    if x.itemid = itemid ∧ x.count < 255 then
      some ({ x with count := (x.count + minCount) % 256 } :: xs)
    else
      (AddItemLoop itemid minCount xs).map (x :: ·)

/-- Translation of `LuaLoot::AddItem`: bump the first matching entry in
place, or hand a freshly constructed `LootStoreItem` to the host's
`Loot::AddItem` (returned in the second component; `none` means the host
call did not happen). -/
def AddItem {α : Type} (items : List LootItem) (itemid minCount maxCount : Nat)
    (chance : α) (lootMode : Nat) (needsQuest : Bool) :
    List LootItem × Option (LootStoreItem α) :=
  match AddItemLoop itemid minCount items with
  | some items' => (items', none)
  | none =>
    (items, some { itemid := itemid, reference := 0, chance := chance,
                   needs_quest := needsQuest, lootmode := lootMode,
                   groupid := 0, mincount := minCount, maxcount := maxCount })

/-- The removal loop of `LuaLoot::RemoveItem`: for each entry whose id
matches, either stop after reducing its count (when the entry holds strictly
more than the amount still to remove and a count was specified), or erase the
entry (reducing the remaining amount when a count was specified); other
entries are passed over. -/
def RemoveItemLoop (itemid : Nat) (isCountSpecified : Bool) :
    Nat → List LootItem → List LootItem
  | _, [] => []
  | count, x :: xs =>
    if x.itemid = itemid then
      if isCountSpecified then
        if count < x.count then { x with count := x.count - count } :: xs
        else RemoveItemLoop itemid isCountSpecified (count - x.count) xs
      else RemoveItemLoop itemid isCountSpecified count xs
    else x :: RemoveItemLoop itemid isCountSpecified count xs

/-- Translation of `LuaLoot::RemoveItem`: the amount to remove is read only
when `isCountSpecified` is set (and is 0 otherwise). -/
def RemoveItem (items : List LootItem) (itemid : Nat) (isCountSpecified : Bool)
    (count : Nat) : List LootItem :=
  RemoveItemLoop itemid isCountSpecified (if isCountSpecified then count else 0) items

/-- Restatement of claim C10's description of counted removal in its own
words, used as the specification side of the refinement: erase matching
entries in list order while their count does not exceed the remainder
(shrinking the remainder), reduce the first matching entry holding strictly
more than the remainder and stop there, and never touch non-matching
entries. -/
def RemoveCountedSpec (itemid : Nat) : Nat → List LootItem → List LootItem
  | _, [] => []
  | rem, x :: xs =>
    if x.itemid = itemid then
      if x.count ≤ rem then RemoveCountedSpec itemid (rem - x.count) xs
      else { x with count := x.count - rem } :: xs
    else x :: RemoveCountedSpec itemid rem xs

end LuaLoot

theorem hasId_of_isInvokeOf {id : Nat} {x : Effect} (h : isInvokeOf id x = true) :
    hasId id x = true := by
  cases x with
  | invoke i f t d r => simpa [isInvokeOf, hasId, Effect.idOf] using h
  | release i f => simp [isInvokeOf] at h

theorem hasId_of_isReleaseOf {id : Nat} {x : Effect} (h : isReleaseOf id x = true) :
    hasId id x = true := by
  cases x with
  | invoke i f t d r => simp [isReleaseOf] at h
  | release i f => simpa [isReleaseOf, hasId, Effect.idOf] using h

theorem filter_isInvokeOf_eq_nil {E : List Effect} {id : Nat}
    (h : E.filter (hasId id) = []) : E.filter (isInvokeOf id) = [] := by
  rw [List.filter_eq_nil_iff] at h ⊢
  exact fun a ha hp => h a ha (hasId_of_isInvokeOf hp)

theorem filter_isReleaseOf_eq_nil {E : List Effect} {id : Nat}
    (h : E.filter (hasId id) = []) : E.filter (isReleaseOf id) = [] := by
  rw [List.filter_eq_nil_iff] at h ⊢
  exact fun a ha hp => h a ha (hasId_of_isReleaseOf hp)

@[simp] theorem invokeDues_append (E F : List Effect) :
    invokeDues (E ++ F) = invokeDues E ++ invokeDues F := by
  simp [invokeDues]

@[simp] theorem invokeReps_append (E F : List Effect) :
    invokeReps (E ++ F) = invokeReps E ++ invokeReps F := by
  simp [invokeReps]

/-- Ids of the entries of the event list that are due at the current clock. -/
def dueIds (p : Processor) : List Nat :=
  (p.eventList.filter fun a => decide (a.1 ≤ p.m_time)).map Prod.snd

/-- Number of due entries of the event list. -/
def dueCount (p : Processor) : Nat :=
  p.eventList.countP fun a => decide (a.1 ≤ p.m_time)

/-- Structural well-formedness used by the drain analysis: the event list is
sorted by due time, its ids are distinct, the heap's ids are distinct, and the
event list and the heap reach exactly the same ids (every queued entry points
at a live object and every live object is queued exactly once). -/
def InvT (p : Processor) : Prop :=
  p.eventList.Pairwise keyLe ∧
  (p.eventList.map Prod.snd).Nodup ∧
  (p.heap.map Prod.fst).Nodup ∧
  (∀ a ∈ p.eventList, a.2 ∈ p.heap.map Prod.fst) ∧
  (∀ x ∈ p.heap, x.1 ∈ p.eventList.map Prod.snd)

/-- Well-formedness of the handle index: keys are distinct, every entry maps
a handle to a queued event that carries that very handle and is not in state
`ERASE`, and all ids are below the allocation counter. -/
def InvM (p : Processor) : Prop :=
  (p.eventMap.map Prod.fst).Nodup ∧
  (∀ m ∈ p.eventMap, m.2 ∈ p.heap.map Prod.fst) ∧
  (∀ m ∈ p.eventMap, ∀ x ∈ p.heap, x.1 = m.2 →
    x.2.funcRef = m.1 ∧ x.2.state ≠ .ERASE) ∧
  (∀ x ∈ p.heap, x.1 < p.nextId)

/-- The byTime-to-byHandle direction of the spec's reachability invariant:
every live event object that is not in state `ERASE` is indexed in
`eventMap` under its own handle. -/
def Live (p : Processor) : Prop :=
  ∀ x ∈ p.heap, x.2.state ≠ .ERASE → (x.2.funcRef, x.1) ∈ p.eventMap

/-- Full invariant of a processor. -/
def Inv (p : Processor) : Prop := InvT p ∧ InvM p ∧ Live p

/-- Delay sanity for every live event: positive lower bound and ordered
bounds.  Under this condition (plus `RandLB`) every drain of the C++ loop
terminates, and the fuelled model reaches the same final state. -/
def DelayOK (p : Processor) : Prop :=
  ∀ x ∈ p.heap, 1 ≤ x.2.min ∧ x.2.min ≤ x.2.max

/-- The randomness oracle respects the requested bounds (§4.1: the delay is
drawn from the inclusive range). -/
def RandLB (H : Host) : Prop :=
  ∀ s a b, a ≤ b → a ≤ H.rand s a b ∧ H.rand s a b ≤ b

/-- The event object `id` is gone from the processor: not in the heap and not
queued. -/
def Removed (q : Processor) (id : Nat) : Prop :=
  id ∉ q.heap.map Prod.fst ∧ id ∉ q.eventList.map Prod.snd

/-- Outcome of one drain for the due entry `a` whose event object is `e`,
by state: a `RUN` event fires exactly once (with its handle, due time, stored
delay and pre-decrement repeat count); on its final repetition
(`repeats == 1`) it is also released exactly once (host permitting) and
removed, otherwise it is rescheduled to a strictly later due time and not
released; an `ABORT` event never fires, is released exactly once (host
permitting) and removed; an `ERASE` event produces no effect at all and is
removed. -/
def PerEntry (H : Host) (p q : Processor) (E : List Effect) (a : Nat × Nat)
    (e : LuaEvent) : Prop :=
  (e.state = .RUN →
    E.filter (isInvokeOf a.2) = [.invoke a.2 e.funcRef a.1 e.delay e.repeats] ∧
    (e.repeats = 1 →
      (E.filter (isReleaseOf a.2) =
        if H.initialized = true ∧ H.hasLuaState = true then
          [.release a.2 e.funcRef]
        else []) ∧
      Removed q a.2) ∧
    (e.repeats ≠ 1 →
      E.filter (isReleaseOf a.2) = [] ∧
      ∃ t', p.m_time < t' ∧ (t', a.2) ∈ q.eventList)) ∧
  (e.state = .ABORT →
    E.filter (isInvokeOf a.2) = [] ∧
    (E.filter (isReleaseOf a.2) =
      if H.initialized = true ∧ H.hasLuaState = true then
        [.release a.2 e.funcRef]
      else []) ∧
    Removed q a.2) ∧
  (e.state = .ERASE →
    E.filter (hasId a.2) = [] ∧ Removed q a.2)

/-- Everything one drain guarantees, relating the pre-state `p` (clock
already advanced), the post-state `q` and the emitted trace `E`:
the clock and allocation counter are untouched; afterwards no queued entry is
due; entries that were not yet due survive unchanged; no new ids appear in
the queue or the heap; events without a due entry contribute no effect;
every due entry meets its per-state outcome (`PerEntry`); and the fired due
times are processed in nondecreasing order, are all at or before the clock,
and all belong to originally due entries. -/
def DrainSpec (H : Host) (p q : Processor) (E : List Effect) : Prop :=
  q.m_time = p.m_time ∧
  q.nextId = p.nextId ∧
  (∀ a ∈ q.eventList, p.m_time < a.1) ∧
  (∀ a ∈ p.eventList, p.m_time < a.1 → a ∈ q.eventList) ∧
  (∀ b ∈ q.eventList, b.2 ∈ p.eventList.map Prod.snd) ∧
  (∀ id, id ∈ q.heap.map Prod.fst → id ∈ p.heap.map Prod.fst) ∧
  (∀ id, id ∉ dueIds p → E.filter (hasId id) = []) ∧
  (∀ a ∈ p.eventList, a.1 ≤ p.m_time → ∀ e, (a.2, e) ∈ p.heap →
    PerEntry H p q E a e) ∧
  List.Pairwise (· ≤ ·) (invokeDues E) ∧
  (∀ t ∈ invokeDues E, t ≤ p.m_time) ∧
  (∀ t ∈ invokeDues E, ∃ a ∈ p.eventList, a.1 = t ∧ a.1 ≤ p.m_time)

theorem idOf_eq_of_hasId {id : Nat} {x : Effect} (h : hasId id x = true) :
    x.idOf = id := by
  simpa [hasId] using h

theorem hasId_false_of_ne {id id' : Nat} {x : Effect} (h : hasId id x = true)
    (hne : id ≠ id') : hasId id' x = false := by
  simp [hasId, idOf_eq_of_hasId h]
  exact hne

theorem isInvokeOf_false_of_hasId_ne {id id' : Nat} {x : Effect}
    (h : hasId id x = true) (hne : id ≠ id') : isInvokeOf id' x = false := by
  cases hb : isInvokeOf id' x
  · rfl
  · exact absurd (hasId_of_isInvokeOf hb) (by simp [hasId_false_of_ne h hne])

theorem isReleaseOf_false_of_hasId_ne {id id' : Nat} {x : Effect}
    (h : hasId id x = true) (hne : id ≠ id') : isReleaseOf id' x = false := by
  cases hb : isReleaseOf id' x
  · rfl
  · exact absurd (hasId_of_isReleaseOf hb) (by simp [hasId_false_of_ne h hne])

theorem filter_eq_nil_of_all_hasId {E : List Effect} {id id' : Nat}
    (hE : ∀ x ∈ E, hasId id x = true) (hne : id ≠ id') :
    E.filter (hasId id') = [] :=
  List.filter_eq_nil_iff.2 fun x hx => by simp [hasId_false_of_ne (hE x hx) hne]

theorem filter_isInvokeOf_eq_nil_of_all_hasId {E : List Effect} {id id' : Nat}
    (hE : ∀ x ∈ E, hasId id x = true) (hne : id ≠ id') :
    E.filter (isInvokeOf id') = [] :=
  List.filter_eq_nil_iff.2 fun x hx => by
    simp [isInvokeOf_false_of_hasId_ne (hE x hx) hne]

theorem filter_isReleaseOf_eq_nil_of_all_hasId {E : List Effect} {id id' : Nat}
    (hE : ∀ x ∈ E, hasId id x = true) (hne : id ≠ id') :
    E.filter (isReleaseOf id') = [] :=
  List.filter_eq_nil_iff.2 fun x hx => by
    simp [isReleaseOf_false_of_hasId_ne (hE x hx) hne]

theorem updateLoop_zero (H : Host) (p : Processor) : updateLoop H 0 p = (p, []) := rfl

theorem updateLoop_nil (H : Host) (fuel : Nat) {p : Processor}
    (h : p.eventList = []) : updateLoop H fuel p = (p, []) := by
  cases fuel with
  | zero => rfl
  | succ fuel => rw [updateLoop, h]

theorem updateLoop_notdue (H : Host) (fuel : Nat) {p : Processor} {t id : Nat}
    {rest : List (Nat × Nat)} (hl : p.eventList = (t, id) :: rest)
    (ht : ¬t ≤ p.m_time) : updateLoop H (fuel + 1) p = (p, []) := by
  rw [updateLoop, hl]
  simp only [if_neg ht]

theorem updateLoop_due (H : Host) (fuel : Nat) {p : Processor} {t id : Nat}
    {rest : List (Nat × Nat)} {e : LuaEvent} (hl : p.eventList = (t, id) :: rest)
    (ht : t ≤ p.m_time) (he : afind p.heap id = some e) :
    updateLoop H (fuel + 1) p =
      ((updateLoop H fuel (step H p t id e rest).1).1,
       (step H p t id e rest).2 ++ (updateLoop H fuel (step H p t id e rest).1).2) := by
  rw [updateLoop, hl]
  simp only [if_pos ht, he]

theorem drainSpec_stay (H : Host) (p : Processor) (hdc : dueCount p = 0) :
    DrainSpec H p p [] := by
  have hnone : ∀ a ∈ p.eventList, ¬a.1 ≤ p.m_time := by
    intro a ha
    have h0 := List.countP_eq_zero.1 hdc a ha
    simpa using h0
  refine ⟨rfl, rfl, ?_, ?_, ?_, ?_, ?_, ?_, ?_, ?_, ?_⟩
  · exact fun a ha => Nat.lt_of_not_le fun hle => hnone a ha hle
  · exact fun a ha _ => ha
  · exact fun b hb => List.mem_map.2 ⟨b, hb, rfl⟩
  · exact fun id h => h
  · intro id h
    rfl
  · intro a ha hd e hee
    exact absurd hd (hnone a ha)
  · exact List.Pairwise.nil
  · intro t h
    simp [invokeDues] at h
  · intro t h
    simp [invokeDues] at h

theorem step_run_resched (H : Host) (p : Processor) (t id : Nat) (e : LuaEvent)
    (rest : List (Nat × Nat)) (h1 : e.state = .RUN) (h2 : e.repeats ≠ 1) :
    step H p t id e rest =
      ({ p with
          seed := p.seed + 1,
          heap := aset p.heap id
            { e with delay := H.rand p.seed e.min e.max,
                     repeats := e.repeats - 1 },
          eventList := insertSorted rest (p.m_time + H.rand p.seed e.min e.max) id,
          eventMap := aset (aerase p.eventMap e.funcRef) e.funcRef id },
       [.invoke id e.funcRef t e.delay e.repeats]) := by
  obtain ⟨r, mn, mx, reps, st, dl⟩ := e
  simp only at h1 h2
  subst h1
  by_cases h0 : reps = 0
  · subst h0
    simp [step, AddEventObj, generateDelay]
  · simp [step, AddEventObj, generateDelay, h0, h2, afind_aset_self, aset_aset]

theorem step_run_last (H : Host) (p : Processor) (t id : Nat) (e : LuaEvent)
    (rest : List (Nat × Nat)) (h1 : e.state = .RUN) (h2 : e.repeats = 1)
    (he : afind p.heap id = some e) :
    step H p t id e rest =
      ({ p with
          heap := aerase p.heap id,
          eventList := rest,
          eventMap := aerase p.eventMap e.funcRef },
       .invoke id e.funcRef t e.delay 1 ::
         (if H.initialized = true ∧ H.hasLuaState = true then
            [.release id e.funcRef]
          else [])) := by
  obtain ⟨r, mn, mx, reps, st, dl⟩ := e
  simp only at h1 h2
  subst h1
  subst h2
  simp [step, RemoveEvent, he, afind_aset_self, aerase_aset_self]

theorem step_abort (H : Host) (p : Processor) (t id : Nat) (e : LuaEvent)
    (rest : List (Nat × Nat)) (h1 : e.state = .ABORT) :
    step H p t id e rest =
      ({ p with
          heap := aerase p.heap id,
          eventList := rest,
          eventMap := aerase p.eventMap e.funcRef },
       if H.initialized = true ∧ H.hasLuaState = true then
         [.release id e.funcRef]
       else []) := by
  obtain ⟨r, mn, mx, reps, st, dl⟩ := e
  simp only at h1
  subst h1
  simp [step, RemoveEvent]

theorem step_erase (H : Host) (p : Processor) (t id : Nat) (e : LuaEvent)
    (rest : List (Nat × Nat)) (h1 : e.state = .ERASE) :
    step H p t id e rest =
      ({ p with heap := aerase p.heap id, eventList := rest }, []) := by
  obtain ⟨r, mn, mx, reps, st, dl⟩ := e
  simp only at h1
  subst h1
  simp [step, RemoveEvent]

theorem drainStep_assemble (H : Host) (fuel : Nat)
    (IH : ∀ p2 : Processor, InvT p2 → DelayOK p2 → dueCount p2 ≤ fuel →
      DrainSpec H p2 (updateLoop H fuel p2).1 (updateLoop H fuel p2).2)
    {p : Processor} {t id : Nat} {e : LuaEvent} {rest : List (Nat × Nat)}
    (hl : p.eventList = (t, id) :: rest) (ht : t ≤ p.m_time)
    (he : afind p.heap id = some e)
    (hInvT : InvT p) (hdc : dueCount p ≤ fuel + 1)
    {p' : Processor} {E1 : List Effect}
    (hstep : step H p t id e rest = (p', E1))
    (hm : p'.m_time = p.m_time) (hn : p'.nextId = p.nextId)
    (hInvT' : InvT p') (hDelay' : DelayOK p')
    (hdc' : dueCount p' < dueCount p)
    (hlist' : ∀ a ∈ p'.eventList, a ∈ rest ∨ (p.m_time < a.1 ∧ a.2 = id))
    (hrest' : ∀ a ∈ rest, a ∈ p'.eventList)
    (hheap' : ∀ id2, id2 ∈ p'.heap.map Prod.fst → id2 ∈ p.heap.map Prod.fst)
    (hOther : ∀ id2 e', id2 ≠ id → ((id2, e') ∈ p'.heap ↔ (id2, e') ∈ p.heap))
    (hE1 : ∀ x ∈ E1, hasId id x = true)
    (hdues : invokeDues E1 = [t] ∨ invokeDues E1 = [])
    (hPer : ∀ q E2, E2.filter (hasId id) = [] →
        (∀ id2, id2 ∈ q.heap.map Prod.fst → id2 ∈ p'.heap.map Prod.fst) →
        (∀ b ∈ q.eventList, b.2 ∈ p'.eventList.map Prod.snd) →
        (∀ a ∈ p'.eventList, p'.m_time < a.1 → a ∈ q.eventList) →
        PerEntry H p q (E1 ++ E2) (t, id) e) :
    DrainSpec H p (updateLoop H (fuel + 1) p).1 (updateLoop H (fuel + 1) p).2 := by
  rw [updateLoop_due H fuel hl ht he, hstep]
  have DS := IH p' hInvT' hDelay' (by omega)
  set q := (updateLoop H fuel p').1 with hq
  set E2 := (updateLoop H fuel p').2 with hE2def
  obtain ⟨ds1, ds2, ds3, ds4, ds5, ds6, ds7, ds8, ds9, ds10, ds11⟩ := DS
  have hidrest : id ∉ rest.map Prod.snd := by
    have h2 := hInvT.2.1
    rw [hl] at h2
    simp only [List.map_cons, List.nodup_cons] at h2
    exact h2.1
  have hsorted : ∀ a ∈ rest, t ≤ a.1 := by
    have h1 := hInvT.1
    rw [hl] at h1
    rcases List.pairwise_cons.1 h1 with ⟨hx, _⟩
    exact fun a ha => hx a ha
  have hrestne : ∀ a ∈ rest, a.2 ≠ id := fun a ha hc =>
    hidrest (hc ▸ List.mem_map.2 ⟨a, ha, rfl⟩)
  have hid_not_due' : id ∉ dueIds p' := by
    intro hmem
    rcases List.mem_map.1 hmem with ⟨a, ha, hsnd⟩
    rcases List.mem_filter.1 ha with ⟨ha1, ha2⟩
    rcases hlist' a ha1 with hr | hresched
    · exact hrestne a hr hsnd
    · have hle : a.1 ≤ p.m_time := by
        rw [← hm]
        exact of_decide_eq_true ha2
      have := hresched.1
      omega
  have f3 : E2.filter (hasId id) = [] := ds7 id hid_not_due'
  have hdp : dueIds p = id :: (rest.filter fun a => decide (a.1 ≤ p.m_time)).map Prod.snd := by
    rw [dueIds, hl, List.filter_cons_of_pos (by simpa using ht), List.map_cons]
  have hnotdue_p : ∀ id2, id2 ∉ dueIds p → id2 ≠ id ∧ id2 ∉ dueIds p' := by
    intro id2 h
    rw [hdp] at h
    simp only [List.mem_cons, not_or] at h
    refine ⟨h.1, ?_⟩
    intro hmem
    rcases List.mem_map.1 hmem with ⟨a, ha, hsnd⟩
    rcases List.mem_filter.1 ha with ⟨ha1, ha2⟩
    have ha2p : decide (a.1 ≤ p.m_time) = true := by
      rw [← hm]
      exact ha2
    rcases hlist' a ha1 with hr | hresched
    · exact h.2 (List.mem_map.2 ⟨a, List.mem_filter.2 ⟨hr, ha2p⟩, hsnd⟩)
    · exact h.1 (by rw [← hsnd, hresched.2])
  refine ⟨?_, ?_, ?_, ?_, ?_, ?_, ?_, ?_, ?_, ?_, ?_⟩
  · exact ds1.trans hm
  · exact ds2.trans hn
  · intro a ha
    have h3 := ds3 a ha
    rw [hm] at h3
    exact h3
  · intro a ha hlt
    rw [hl] at ha
    rcases List.mem_cons.1 ha with rfl | har
    · exact absurd ht (by simp at hlt ⊢; omega)
    · exact ds4 a (hrest' a har) (by rw [hm]; exact hlt)
  · intro b hb
    have h5 := ds5 b hb
    rcases List.mem_map.1 h5 with ⟨a, ha, hsnd⟩
    rcases hlist' a ha with hr | hresched
    · exact hsnd ▸ List.mem_map.2 ⟨a, by rw [hl]; exact List.mem_cons_of_mem _ hr, rfl⟩
    · rw [← hsnd, hresched.2]
      exact List.mem_map.2 ⟨(t, id), by rw [hl]; exact List.mem_cons_self _ _, rfl⟩
  · intro id2 h6
    exact hheap' id2 (ds6 id2 h6)
  · intro id2 hnd
    obtain ⟨hne2, hnd'⟩ := hnotdue_p id2 hnd
    have hneid : id ≠ id2 := fun hc => hne2 hc.symm
    rw [List.filter_append, filter_eq_nil_of_all_hasId hE1 hneid, ds7 id2 hnd',
      List.nil_append]
  · intro a ha hd e' hmem'
    rw [hl] at ha
    rcases List.mem_cons.1 ha with rfl | har
    · have hee : e' = e := mem_val_nodup_eq hInvT.2.2.1 hmem' (mem_of_afind_eq_some he)
      rw [hee]
      exact hPer q E2 f3 ds6 ds5 ds4
    · have hne2 : a.2 ≠ id := hrestne a har
      have hmem2 : (a.2, e') ∈ p'.heap := (hOther a.2 e' hne2).2 hmem'
      obtain ⟨pe1, pe2, pe3⟩ := ds8 a (hrest' a har) (by rw [hm]; exact hd) e' hmem2
      have hne : id ≠ a.2 := fun hc => hne2 hc.symm
      have hfinv : (E1 ++ E2).filter (isInvokeOf a.2) = E2.filter (isInvokeOf a.2) := by
        rw [List.filter_append, filter_isInvokeOf_eq_nil_of_all_hasId hE1 hne,
          List.nil_append]
      have hfrel : (E1 ++ E2).filter (isReleaseOf a.2) = E2.filter (isReleaseOf a.2) := by
        rw [List.filter_append, filter_isReleaseOf_eq_nil_of_all_hasId hE1 hne,
          List.nil_append]
      have hfhas : (E1 ++ E2).filter (hasId a.2) = E2.filter (hasId a.2) := by
        rw [List.filter_append, filter_eq_nil_of_all_hasId hE1 hne, List.nil_append]
      refine ⟨?_, ?_, ?_⟩
      · intro hst
        obtain ⟨q1, q2, q3⟩ := pe1 hst
        refine ⟨by rw [hfinv]; exact q1, ?_, ?_⟩
        · intro hrep
          obtain ⟨w1, w2⟩ := q2 hrep
          exact ⟨by rw [hfrel]; exact w1, w2⟩
        · intro hrep
          obtain ⟨w1, w2⟩ := q3 hrep
          refine ⟨by rw [hfrel]; exact w1, ?_⟩
          obtain ⟨t', ht', hmem3⟩ := w2
          rw [hm] at ht'
          exact ⟨t', ht', hmem3⟩
      · intro hst
        obtain ⟨q1, q2, q3⟩ := pe2 hst
        exact ⟨by rw [hfinv]; exact q1, by rw [hfrel]; exact q2, q3⟩
      · intro hst
        obtain ⟨q1, q2⟩ := pe3 hst
        exact ⟨by rw [hfhas]; exact q1, q2⟩
  · rw [invokeDues_append]
    rcases hdues with hD | hD
    · rw [hD, List.cons_append, List.nil_append, List.pairwise_cons]
      refine ⟨?_, ds9⟩
      intro d hd
      rcases ds11 d hd with ⟨a, ha, had, hdue⟩
      rcases hlist' a ha with hr | hresched
      · exact had ▸ hsorted a hr
      · rw [← had]
        have h1 := hresched.1
        omega
    · rw [hD, List.nil_append]
      exact ds9
  · rw [invokeDues_append]
    intro d hd
    rcases List.mem_append.1 hd with h | h
    · rcases hdues with hD | hD
      · rw [hD] at h
        rcases List.mem_singleton.1 h with rfl
        exact ht
      · rw [hD] at h
        simp at h
    · have h10 := ds10 d h
      rw [hm] at h10
      exact h10
  · rw [invokeDues_append]
    intro d hd
    rcases List.mem_append.1 hd with h | h
    · rcases hdues with hD | hD
      · rw [hD] at h
        rw [List.mem_singleton] at h
        exact ⟨(t, id), by rw [hl]; exact List.mem_cons_self _ _, h.symm, ht⟩
      · rw [hD] at h
        simp at h
    · rcases ds11 d h with ⟨a, ha, had, hdue⟩
      rw [hm] at hdue
      rcases hlist' a ha with hr | hresched
      · exact ⟨a, by rw [hl]; exact List.mem_cons_of_mem _ hr, had, hdue⟩
      · have h1 := hresched.1
        omega

theorem remove_case_facts {p : Processor} {t id : Nat} {rest : List (Nat × Nat)}
    {e : LuaEvent} {M' : List (Int × Nat)} {p' : Processor}
    (hp' : p' = { p with heap := aerase p.heap id, eventList := rest, eventMap := M' })
    (hl : p.eventList = (t, id) :: rest) (ht : t ≤ p.m_time)
    (_hmem : (id, e) ∈ p.heap) (hInvT : InvT p) (hDelay : DelayOK p) :
    InvT p' ∧ DelayOK p' ∧ dueCount p' < dueCount p ∧
    p'.m_time = p.m_time ∧ p'.nextId = p.nextId ∧
    (∀ a ∈ p'.eventList, a ∈ rest ∨ (p.m_time < a.1 ∧ a.2 = id)) ∧
    (∀ a ∈ rest, a ∈ p'.eventList) ∧
    (∀ id2, id2 ∈ p'.heap.map Prod.fst → id2 ∈ p.heap.map Prod.fst) ∧
    (∀ id2 e', id2 ≠ id → ((id2, e') ∈ p'.heap ↔ (id2, e') ∈ p.heap)) ∧
    id ∉ p'.heap.map Prod.fst ∧ id ∉ p'.eventList.map Prod.snd := by
  obtain ⟨hs, hnl, hnh, hlh, hhl⟩ := hInvT
  have hnl' := hnl
  rw [hl, List.map_cons, List.nodup_cons] at hnl'
  have hidrest : id ∉ rest.map Prod.snd := hnl'.1
  have hrestne : ∀ a ∈ rest, a.2 ≠ id := fun a ha hc =>
    hidrest (hc ▸ List.mem_map.2 ⟨a, ha, rfl⟩)
  subst hp'
  refine ⟨⟨?_, ?_, ?_, ?_, ?_⟩, ?_, ?_, rfl, rfl, ?_, ?_, ?_, ?_, ?_, ?_⟩
  · exact (List.pairwise_cons.1 (hl ▸ hs)).2
  · exact hnl'.2
  · exact keys_aerase_nodup id hnh
  · intro a ha
    exact mem_keys_aerase_of_ne
      (hlh a (by rw [hl]; exact List.mem_cons_of_mem _ ha)) (hrestne a ha)
  · intro x hx
    obtain ⟨hxm, hxne⟩ := mem_aerase_iff.1 hx
    have hx1 := hhl x hxm
    rw [hl, List.map_cons, List.mem_cons] at hx1
    rcases hx1 with h | h
    · exact absurd h hxne
    · exact h
  · intro x hx
    exact hDelay x (mem_aerase_iff.1 hx).1
  · show rest.countP _ < dueCount p
    rw [dueCount, hl, List.countP_cons]
    simp only [decide_eq_true_eq]
    rw [if_pos ht]
    omega
  · exact fun a ha => Or.inl ha
  · exact fun a ha => ha
  · exact fun id2 h => mem_keys_of_mem_keys_aerase h
  · exact fun id2 e' hne =>
      ⟨fun h => (mem_aerase_iff.1 h).1, fun h => mem_aerase_iff.2 ⟨h, hne⟩⟩
  · exact not_mem_keys_aerase_self p.heap id
  · exact hidrest

theorem resched_case_facts (H : Host) {p : Processor} {t id : Nat}
    {rest : List (Nat × Nat)} {e : LuaEvent} {M' : List (Int × Nat)} {p' : Processor}
    (hp' : p' =
      { p with seed := p.seed + 1,
               heap := aset p.heap id
                 { e with delay := H.rand p.seed e.min e.max,
                          repeats := e.repeats - 1 },
               eventList := insertSorted rest (p.m_time + H.rand p.seed e.min e.max) id,
               eventMap := M' })
    (hl : p.eventList = (t, id) :: rest) (ht : t ≤ p.m_time)
    (hK : p.m_time < p.m_time + H.rand p.seed e.min e.max)
    (hmem : (id, e) ∈ p.heap) (hInvT : InvT p) (hDelay : DelayOK p) :
    InvT p' ∧ DelayOK p' ∧ dueCount p' < dueCount p ∧
    p'.m_time = p.m_time ∧ p'.nextId = p.nextId ∧
    (∀ a ∈ p'.eventList, a ∈ rest ∨ (p.m_time < a.1 ∧ a.2 = id)) ∧
    (∀ a ∈ rest, a ∈ p'.eventList) ∧
    (∀ id2, id2 ∈ p'.heap.map Prod.fst → id2 ∈ p.heap.map Prod.fst) ∧
    (∀ id2 e', id2 ≠ id → ((id2, e') ∈ p'.heap ↔ (id2, e') ∈ p.heap)) ∧
    (p.m_time + H.rand p.seed e.min e.max, id) ∈ p'.eventList := by
  set K := p.m_time + H.rand p.seed e.min e.max with hKdef
  set v : LuaEvent :=
    { e with delay := H.rand p.seed e.min e.max, repeats := e.repeats - 1 }
    with hvdef
  obtain ⟨hs, hnl, hnh, hlh, hhl⟩ := hInvT
  have hnl' := hnl
  rw [hl, List.map_cons, List.nodup_cons] at hnl'
  have hidrest : id ∉ rest.map Prod.snd := hnl'.1
  have hrestne : ∀ a ∈ rest, a.2 ≠ id := fun a ha hc =>
    hidrest (hc ▸ List.mem_map.2 ⟨a, ha, rfl⟩)
  have hidmem : id ∈ p.heap.map Prod.fst := List.mem_map.2 ⟨(id, e), hmem, rfl⟩
  have hpermIds :
      List.Perm ((insertSorted rest K id).map Prod.snd) (id :: rest.map Prod.snd) :=
    (insertSorted_perm rest K id).map Prod.snd
  subst hp'
  refine ⟨⟨?_, ?_, ?_, ?_, ?_⟩, ?_, ?_, rfl, rfl, ?_, ?_, ?_, ?_, ?_⟩
  · exact pairwise_insertSorted (List.pairwise_cons.1 (hl ▸ hs)).2
  · exact hpermIds.nodup_iff.2 (List.nodup_cons.2 ⟨hidrest, hnl'.2⟩)
  · exact keys_aset_nodup hnh
  · intro a ha
    rcases mem_insertSorted.1 ha with rfl | har
    · exact mem_keys_aset_self p.heap id v
    · exact mem_keys_aset_of_mem v
        (hlh a (by rw [hl]; exact List.mem_cons_of_mem _ har))
  · intro x hx
    rcases (mem_aset_iff hnh).1 hx with ⟨hne, hxm⟩ | rfl
    · have hx1 := hhl x hxm
      rw [hl, List.map_cons, List.mem_cons] at hx1
      rcases hx1 with h | h
      · exact absurd h hne
      · rcases List.mem_map.1 h with ⟨a, ha, hsnd⟩
        exact hsnd ▸ List.mem_map.2 ⟨a, mem_insertSorted.2 (Or.inr ha), rfl⟩
    · exact List.mem_map.2 ⟨(K, id), mem_insertSorted.2 (Or.inl rfl), rfl⟩
  · intro x hx
    rcases (mem_aset_iff hnh).1 hx with ⟨_, hxm⟩ | rfl
    · exact hDelay x hxm
    · exact hDelay (id, e) hmem
  · show (insertSorted rest K id).countP _ < dueCount p
    rw [(insertSorted_perm rest K id).countP_eq, dueCount, hl, List.countP_cons,
      List.countP_cons]
    simp only [decide_eq_true_eq]
    rw [if_pos ht, if_neg (by omega : ¬K ≤ p.m_time)]
    omega
  · intro a ha
    rcases mem_insertSorted.1 ha with rfl | har
    · exact Or.inr ⟨hK, rfl⟩
    · exact Or.inl har
  · exact fun a ha => mem_insertSorted.2 (Or.inr ha)
  · intro id2 h
    rcases mem_keys_aset h with h1 | rfl
    · exact h1
    · exact hidmem
  · intro id2 e' hne
    constructor
    · intro h
      rcases (mem_aset_iff hnh).1 h with ⟨_, hxm⟩ | heq
      · exact hxm
      · exact absurd (congrArg Prod.fst heq) hne
    · intro h
      exact mem_aset_of_mem_ne v h hne
  · exact mem_insertSorted.2 (Or.inl rfl)

theorem updateLoop_drainSpec (H : Host) (hr : RandLB H) :
    ∀ (fuel : Nat) (p : Processor), InvT p → DelayOK p → dueCount p ≤ fuel →
      DrainSpec H p (updateLoop H fuel p).1 (updateLoop H fuel p).2 := by
  intro fuel
  induction fuel with
  | zero =>
    intro p hInvT hDelay hdc
    rw [updateLoop_zero]
    exact drainSpec_stay H p (Nat.le_zero.1 hdc)
  | succ fuel IH =>
    intro p hInvT hDelay hdc
    cases hl : p.eventList with
    | nil =>
      rw [updateLoop_nil H (fuel + 1) hl]
      refine drainSpec_stay H p ?_
      rw [dueCount, hl]
      rfl
    | cons hd rest =>
      obtain ⟨t, id⟩ := hd
      by_cases ht : t ≤ p.m_time
      swap
      · rw [updateLoop_notdue H fuel hl ht]
        refine drainSpec_stay H p ?_
        rw [dueCount, hl]
        apply List.countP_eq_zero.2
        intro a ha
        rcases List.mem_cons.1 ha with rfl | har
        · simpa using ht
        · have hta : t ≤ a.1 := (List.pairwise_cons.1 (hl ▸ hInvT.1)).1 a har
          simp only [decide_eq_true_eq]
          exact fun hc => ht (le_trans hta hc)
      · have hmemk : id ∈ p.heap.map Prod.fst :=
          hInvT.2.2.2.1 (t, id) (by rw [hl]; exact List.mem_cons_self _ _)
        have hfind : ∃ e, afind p.heap id = some e := by
          cases hfe : afind p.heap id with
          | none => exact absurd hmemk (afind_eq_none_iff.1 hfe)
          | some e => exact ⟨e, rfl⟩
        obtain ⟨e, he⟩ := hfind
        have hmem : (id, e) ∈ p.heap := mem_of_afind_eq_some he
        cases hstate : e.state with
        | RUN =>
          by_cases h2 : e.repeats = 1
          · -- final firing: invoke once, then remove and (host permitting) release
            have hstep := step_run_last H p t id e rest hstate h2 he
            obtain ⟨f1, f2, f3, f4, f5, f6, f7, f8, f9, f10, f11⟩ :=
              remove_case_facts rfl hl ht hmem hInvT hDelay
            by_cases hI : H.initialized = true ∧ H.hasLuaState = true
            · rw [if_pos hI] at hstep
              refine drainStep_assemble H fuel IH hl ht he hInvT hdc hstep
                f4 f5 f1 f2 f3 f6 f7 f8 f9 ?_ ?_ ?_
              · intro x hx
                rcases List.mem_cons.1 hx with rfl | hx2
                · simp [hasId, Effect.idOf]
                · rcases List.mem_singleton.1 hx2 with rfl
                  simp [hasId, Effect.idOf]
              · left
                simp [invokeDues]
              · intro q E2 hf3 hq6 hq5 hq4
                refine ⟨?_, ?_, ?_⟩
                · intro _
                  refine ⟨?_, ?_, ?_⟩
                  · rw [List.filter_append, filter_isInvokeOf_eq_nil hf3,
                      List.append_nil]
                    simp [isInvokeOf, h2]
                  · intro _
                    refine ⟨?_, ?_, ?_⟩
                    · rw [List.filter_append, filter_isReleaseOf_eq_nil hf3,
                        List.append_nil, if_pos hI]
                      simp [isReleaseOf]
                    · intro hcq
                      exact f10 (hq6 id hcq)
                    · intro hcq
                      rcases List.mem_map.1 hcq with ⟨b, hb, hsnd⟩
                      have hsnd2 : b.2 = id := hsnd
                      exact f11 (hsnd2 ▸ hq5 b hb)
                  · intro hrep
                    exact absurd h2 hrep
                · intro hst
                  rw [hstate] at hst
                  cases hst
                · intro hst
                  rw [hstate] at hst
                  cases hst
            · rw [if_neg hI] at hstep
              refine drainStep_assemble H fuel IH hl ht he hInvT hdc hstep
                f4 f5 f1 f2 f3 f6 f7 f8 f9 ?_ ?_ ?_
              · intro x hx
                rcases List.mem_singleton.1 (by simpa using hx) with rfl
                simp [hasId, Effect.idOf]
              · left
                simp [invokeDues]
              · intro q E2 hf3 hq6 hq5 hq4
                refine ⟨?_, ?_, ?_⟩
                · intro _
                  refine ⟨?_, ?_, ?_⟩
                  · rw [List.filter_append, filter_isInvokeOf_eq_nil hf3,
                      List.append_nil]
                    simp [isInvokeOf, h2]
                  · intro _
                    refine ⟨?_, ?_, ?_⟩
                    · rw [List.filter_append, filter_isReleaseOf_eq_nil hf3,
                        List.append_nil, if_neg hI]
                      simp [isReleaseOf]
                    · intro hcq
                      exact f10 (hq6 id hcq)
                    · intro hcq
                      rcases List.mem_map.1 hcq with ⟨b, hb, hsnd⟩
                      have hsnd2 : b.2 = id := hsnd
                      exact f11 (hsnd2 ▸ hq5 b hb)
                  · intro hrep
                    exact absurd h2 hrep
                · intro hst
                  rw [hstate] at hst
                  cases hst
                · intro hst
                  rw [hstate] at hst
                  cases hst
          · -- reschedule before invoking; fires once with the saved delay
            have hstep := step_run_resched H p t id e rest hstate h2
            have hdm := hDelay (id, e) hmem
            have hd1 : 1 ≤ H.rand p.seed e.min e.max :=
              le_trans hdm.1 (hr p.seed e.min e.max hdm.2).1
            have hK : p.m_time < p.m_time + H.rand p.seed e.min e.max := by omega
            obtain ⟨f1, f2, f3, f4, f5, f6, f7, f8, f9, f10⟩ :=
              resched_case_facts H rfl hl ht hK hmem hInvT hDelay
            refine drainStep_assemble H fuel IH hl ht he hInvT hdc hstep
              f4 f5 f1 f2 f3 f6 f7 f8 f9 ?_ ?_ ?_
            · intro x hx
              rcases List.mem_singleton.1 hx with rfl
              simp [hasId, Effect.idOf]
            · left
              simp [invokeDues]
            · intro q E2 hf3 hq6 hq5 hq4
              refine ⟨?_, ?_, ?_⟩
              · intro _
                refine ⟨?_, ?_, ?_⟩
                · rw [List.filter_append, filter_isInvokeOf_eq_nil hf3,
                    List.append_nil]
                  simp [isInvokeOf]
                · intro hrep
                  exact absurd hrep h2
                · intro _
                  refine ⟨?_, ?_⟩
                  · rw [List.filter_append, filter_isReleaseOf_eq_nil hf3,
                      List.append_nil]
                    simp [isReleaseOf]
                  · refine ⟨p.m_time + H.rand p.seed e.min e.max, hK, ?_⟩
                    refine hq4 _ f10 ?_
                    rw [f4]
                    exact hK
              · intro hst
                rw [hstate] at hst
                cases hst
              · intro hst
                rw [hstate] at hst
                cases hst
        | ABORT =>
          have hstep := step_abort H p t id e rest hstate
          obtain ⟨f1, f2, f3, f4, f5, f6, f7, f8, f9, f10, f11⟩ :=
            remove_case_facts rfl hl ht hmem hInvT hDelay
          by_cases hI : H.initialized = true ∧ H.hasLuaState = true
          · rw [if_pos hI] at hstep
            refine drainStep_assemble H fuel IH hl ht he hInvT hdc hstep
              f4 f5 f1 f2 f3 f6 f7 f8 f9 ?_ ?_ ?_
            · intro x hx
              rcases List.mem_singleton.1 hx with rfl
              simp [hasId, Effect.idOf]
            · right
              simp [invokeDues]
            · intro q E2 hf3 hq6 hq5 hq4
              refine ⟨?_, ?_, ?_⟩
              · intro hst
                rw [hstate] at hst
                cases hst
              · intro _
                refine ⟨?_, ?_, ?_, ?_⟩
                · rw [List.filter_append, filter_isInvokeOf_eq_nil hf3,
                    List.append_nil]
                  simp [isInvokeOf]
                · rw [List.filter_append, filter_isReleaseOf_eq_nil hf3,
                    List.append_nil, if_pos hI]
                  simp [isReleaseOf]
                · intro hcq
                  exact f10 (hq6 id hcq)
                · intro hcq
                  rcases List.mem_map.1 hcq with ⟨b, hb, hsnd⟩
                  have hsnd2 : b.2 = id := hsnd
                  exact f11 (hsnd2 ▸ hq5 b hb)
              · intro hst
                rw [hstate] at hst
                cases hst
          · rw [if_neg hI] at hstep
            refine drainStep_assemble H fuel IH hl ht he hInvT hdc hstep
              f4 f5 f1 f2 f3 f6 f7 f8 f9 ?_ ?_ ?_
            · intro x hx
              simp at hx
            · right
              simp [invokeDues]
            · intro q E2 hf3 hq6 hq5 hq4
              refine ⟨?_, ?_, ?_⟩
              · intro hst
                rw [hstate] at hst
                cases hst
              · intro _
                refine ⟨?_, ?_, ?_, ?_⟩
                · rw [List.nil_append]
                  exact filter_isInvokeOf_eq_nil hf3
                · rw [List.nil_append, if_neg hI]
                  exact filter_isReleaseOf_eq_nil hf3
                · intro hcq
                  exact f10 (hq6 id hcq)
                · intro hcq
                  rcases List.mem_map.1 hcq with ⟨b, hb, hsnd⟩
                  have hsnd2 : b.2 = id := hsnd
                  exact f11 (hsnd2 ▸ hq5 b hb)
              · intro hst
                rw [hstate] at hst
                cases hst
        | ERASE =>
          have hstep := step_erase H p t id e rest hstate
          obtain ⟨f1, f2, f3, f4, f5, f6, f7, f8, f9, f10, f11⟩ :=
            remove_case_facts rfl hl ht hmem hInvT hDelay
          refine drainStep_assemble H fuel IH hl ht he hInvT hdc hstep
            f4 f5 f1 f2 f3 f6 f7 f8 f9 ?_ ?_ ?_
          · intro x hx
            simp at hx
          · right
            simp [invokeDues]
          · intro q E2 hf3 hq6 hq5 hq4
            refine ⟨?_, ?_, ?_⟩
            · intro hst
              rw [hstate] at hst
              cases hst
            · intro hst
              rw [hstate] at hst
              cases hst
            · intro _
              refine ⟨?_, ?_, ?_⟩
              · rw [List.nil_append]
                exact hf3
              · intro hcq
                exact f10 (hq6 id hcq)
              · intro hcq
                rcases List.mem_map.1 hcq with ⟨b, hb, hsnd⟩
                have hsnd2 : b.2 = id := hsnd
                exact f11 (hsnd2 ▸ hq5 b hb)

/-- Everything one call of `Update` guarantees, stated against the clock
already advanced by the elapsed time. -/
theorem Update_drainSpec (H : Host) (hr : RandLB H) (diff : Nat) (p : Processor)
    (hInvT : InvT p) (hDelay : DelayOK p) :
    DrainSpec H { p with m_time := p.m_time + diff }
      (Update H diff p).1 (Update H diff p).2 := by
  have h1 : InvT { p with m_time := p.m_time + diff } := hInvT
  have h2 : DelayOK { p with m_time := p.m_time + diff } := hDelay
  have h3 : dueCount { p with m_time := p.m_time + diff } ≤
      drainFuel { p with m_time := p.m_time + diff } :=
    le_trans (List.countP_le_length _) (Nat.le_add_right _ _)
  exact updateLoop_drainSpec H hr _ _ h1 h2 h3

theorem SetState_state_erase (e : LuaEvent) :
    (e.SetState .ERASE).state = .ERASE := by
  rw [LuaEvent.SetState]
  by_cases h : e.state = .ERASE
  · rw [if_pos h]
    exact h
  · rw [if_neg h]

theorem SetState_of_not_erase {e : LuaEvent} (h : e.state ≠ .ERASE)
    (s : LuaEventState) : e.SetState s = { e with state := s } := by
  rw [LuaEvent.SetState, if_neg h]

theorem SetState_funcRef (e : LuaEvent) (s : LuaEventState) :
    (e.SetState s).funcRef = e.funcRef := by
  rw [LuaEvent.SetState]
  by_cases h : e.state = .ERASE
  · rw [if_pos h]
  · rw [if_neg h]

theorem SetState_SetState (e : LuaEvent) (s : LuaEventState) :
    (e.SetState s).SetState s = e.SetState s := by
  by_cases h : e.state = .ERASE
  · have h1 : e.SetState s = e := by rw [LuaEvent.SetState, if_pos h]
    rw [h1]
    exact h1
  · rw [SetState_of_not_erase h]
    by_cases hs : s = .ERASE
    · subst hs
      rw [LuaEvent.SetState, if_pos rfl]
    · rw [SetState_of_not_erase (by simpa using hs)]

theorem invT_resched {p : Processor} {t id : Nat} {rest : List (Nat × Nat)}
    {K : Nat} {v : LuaEvent} {M' : List (Int × Nat)}
    (hl : p.eventList = (t, id) :: rest) (hInvT : InvT p) :
    InvT
      { p with seed := p.seed + 1, heap := aset p.heap id v,
               eventList := insertSorted rest K id, eventMap := M' } := by
  obtain ⟨hs, hnl, hnh, hlh, hhl⟩ := hInvT
  have hnl' := hnl
  rw [hl, List.map_cons, List.nodup_cons] at hnl'
  have hpermIds :
      List.Perm ((insertSorted rest K id).map Prod.snd) (id :: rest.map Prod.snd) :=
    (insertSorted_perm rest K id).map Prod.snd
  refine ⟨?_, ?_, ?_, ?_, ?_⟩
  · exact pairwise_insertSorted (List.pairwise_cons.1 (hl ▸ hs)).2
  · exact hpermIds.nodup_iff.2 (List.nodup_cons.2 ⟨hnl'.1, hnl'.2⟩)
  · exact keys_aset_nodup hnh
  · intro a ha
    rcases mem_insertSorted.1 ha with rfl | har
    · exact mem_keys_aset_self p.heap id v
    · exact mem_keys_aset_of_mem v
        (hlh a (by rw [hl]; exact List.mem_cons_of_mem _ har))
  · intro x hx
    rcases (mem_aset_iff hnh).1 hx with ⟨hne, hxm⟩ | rfl
    · have hx1 := hhl x hxm
      rw [hl, List.map_cons, List.mem_cons] at hx1
      rcases hx1 with h | h
      · exact absurd h hne
      · rcases List.mem_map.1 h with ⟨a, ha, hsnd⟩
        exact hsnd ▸ List.mem_map.2 ⟨a, mem_insertSorted.2 (Or.inr ha), rfl⟩
    · exact List.mem_map.2 ⟨(K, id), mem_insertSorted.2 (Or.inl rfl), rfl⟩

theorem invT_remove {p : Processor} {t id : Nat} {rest : List (Nat × Nat)}
    {M' : List (Int × Nat)} (hl : p.eventList = (t, id) :: rest) (hInvT : InvT p) :
    InvT
      { p with heap := aerase p.heap id, eventList := rest, eventMap := M' } := by
  obtain ⟨hs, hnl, hnh, hlh, hhl⟩ := hInvT
  have hnl' := hnl
  rw [hl, List.map_cons, List.nodup_cons] at hnl'
  have hrestne : ∀ a ∈ rest, a.2 ≠ id := fun a ha hc =>
    hnl'.1 (hc ▸ List.mem_map.2 ⟨a, ha, rfl⟩)
  refine ⟨?_, ?_, ?_, ?_, ?_⟩
  · exact (List.pairwise_cons.1 (hl ▸ hs)).2
  · exact hnl'.2
  · exact keys_aerase_nodup id hnh
  · intro a ha
    exact mem_keys_aerase_of_ne
      (hlh a (by rw [hl]; exact List.mem_cons_of_mem _ ha)) (hrestne a ha)
  · intro x hx
    obtain ⟨hxm, hxne⟩ := mem_aerase_iff.1 hx
    have hx1 := hhl x hxm
    rw [hl, List.map_cons, List.mem_cons] at hx1
    rcases hx1 with h | h
    · exact absurd h hxne
    · exact h

theorem inv_step_remove {p : Processor} {t id : Nat} {rest : List (Nat × Nat)}
    {e : LuaEvent} (hl : p.eventList = (t, id) :: rest) (hmem : (id, e) ∈ p.heap)
    (hInv : Inv p) (hstate : e.state ≠ .ERASE) :
    Inv
      { p with heap := aerase p.heap id, eventList := rest,
               eventMap := aerase p.eventMap e.funcRef } := by
  obtain ⟨hInvT, ⟨hmk, hmh, hms, hfr⟩, hlive⟩ := hInv
  have hnh := hInvT.2.2.1
  have hrid : (e.funcRef, id) ∈ p.eventMap := hlive (id, e) hmem hstate
  refine ⟨invT_remove hl hInvT, ⟨?_, ?_, ?_, ?_⟩, ?_⟩
  · exact keys_aerase_nodup _ hmk
  · intro m hm
    obtain ⟨hmm, hmne⟩ := mem_aerase_iff.1 hm
    have hid2 : m.2 ≠ id := by
      intro hc
      have hfe := (hms m hmm (id, e) hmem hc.symm).1
      exact hmne (by rw [← hfe])
    exact mem_keys_aerase_of_ne (hmh m hmm) hid2
  · intro m hm x hx hxm
    exact hms m (mem_aerase_iff.1 hm).1 x (mem_aerase_iff.1 hx).1 hxm
  · intro x hx
    exact hfr x (mem_aerase_iff.1 hx).1
  · intro x hx hxs
    obtain ⟨hxm, hxne⟩ := mem_aerase_iff.1 hx
    have hin := hlive x hxm hxs
    refine mem_aerase_iff.2 ⟨hin, ?_⟩
    intro hc
    exact hxne (mem_val_nodup_eq hmk (hc ▸ hin) hrid)

theorem inv_step_erase {p : Processor} {t id : Nat} {rest : List (Nat × Nat)}
    {e : LuaEvent} (hl : p.eventList = (t, id) :: rest) (hmem : (id, e) ∈ p.heap)
    (hInv : Inv p) (hstate : e.state = .ERASE) :
    Inv { p with heap := aerase p.heap id, eventList := rest } := by
  obtain ⟨hInvT, ⟨hmk, hmh, hms, hfr⟩, hlive⟩ := hInv
  refine ⟨invT_remove hl hInvT, ⟨hmk, ?_, ?_, ?_⟩, ?_⟩
  · intro m hm
    have hid2 : m.2 ≠ id := by
      intro hc
      exact (hms m hm (id, e) hmem hc.symm).2 hstate
    exact mem_keys_aerase_of_ne (hmh m hm) hid2
  · intro m hm x hx hxm
    exact hms m hm x (mem_aerase_iff.1 hx).1 hxm
  · intro x hx
    exact hfr x (mem_aerase_iff.1 hx).1
  · intro x hx hxs
    exact hlive x (mem_aerase_iff.1 hx).1 hxs

theorem inv_step_resched {p : Processor} {t id : Nat} {rest : List (Nat × Nat)}
    {e : LuaEvent} {K : Nat} {v : LuaEvent}
    (hl : p.eventList = (t, id) :: rest) (hmem : (id, e) ∈ p.heap)
    (hInv : Inv p) (hstate : e.state = .RUN)
    (hvf : v.funcRef = e.funcRef) (hvs : v.state = .RUN) :
    Inv
      { p with seed := p.seed + 1, heap := aset p.heap id v,
               eventList := insertSorted rest K id,
               eventMap := aset (aerase p.eventMap e.funcRef) e.funcRef id } := by
  obtain ⟨hInvT, ⟨hmk, hmh, hms, hfr⟩, hlive⟩ := hInv
  have hnh := hInvT.2.2.1
  have hseq : e.state ≠ .ERASE := by rw [hstate]; intro hc; cases hc
  have hrid : (e.funcRef, id) ∈ p.eventMap := hlive (id, e) hmem hseq
  have hmk' := keys_aerase_nodup e.funcRef hmk
  refine ⟨invT_resched hl hInvT, ⟨?_, ?_, ?_, ?_⟩, ?_⟩
  · exact keys_aset_nodup hmk'
  · intro m hm
    rcases (mem_aset_iff hmk').1 hm with ⟨hne, hmm⟩ | rfl
    · exact mem_keys_aset_of_mem v (hmh m (mem_aerase_iff.1 hmm).1)
    · exact mem_keys_aset_self p.heap id v
  · intro m hm x hx hxm
    rcases (mem_aset_iff hmk').1 hm with ⟨hne, hmm⟩ | rfl
    · have hmm2 := (mem_aerase_iff.1 hmm).1
      have hid2 : m.2 ≠ id := by
        intro hc
        have hfe := (hms m hmm2 (id, e) hmem hc.symm).1
        exact hne (by rw [← hfe])
      rcases (mem_aset_iff hnh).1 hx with ⟨_, hxm2⟩ | rfl
      · exact hms m hmm2 x hxm2 hxm
      · exact absurd (show m.2 = id from hxm.symm) hid2
    · rcases (mem_aset_iff hnh).1 hx with ⟨hne2, _⟩ | rfl
      · exact absurd hxm hne2
      · constructor
        · simpa using hvf
        · simp only
          rw [hvs]
          intro hc
          cases hc
  · intro x hx
    rcases (mem_aset_iff hnh).1 hx with ⟨_, hxm⟩ | rfl
    · exact hfr x hxm
    · exact hfr (id, e) hmem
  · intro x hx hxs
    rcases (mem_aset_iff hnh).1 hx with ⟨hne, hxm⟩ | rfl
    · have hin := hlive x hxm hxs
      have hfne : x.2.funcRef ≠ e.funcRef := by
        intro hc
        exact hne (mem_val_nodup_eq hmk (hc ▸ hin) hrid)
      exact mem_aset_of_mem_ne id (mem_aerase_iff.2 ⟨hin, hfne⟩) hfne
    · have h2 : ((id, v).2.funcRef) = e.funcRef := hvf
      rw [h2]
      exact mem_aset_self _ _ _

/-- The drain loop preserves the full invariant — with any fuel and without
any delay assumption, because the invariant is restored at the end of every
single iteration. -/
theorem updateLoop_inv (H : Host) :
    ∀ (fuel : Nat) (p : Processor), Inv p → Inv (updateLoop H fuel p).1 := by
  intro fuel
  induction fuel with
  | zero =>
    intro p hInv
    exact hInv
  | succ fuel IH =>
    intro p hInv
    cases hl : p.eventList with
    | nil =>
      rw [updateLoop_nil H (fuel + 1) hl]
      exact hInv
    | cons hd rest =>
      obtain ⟨t, id⟩ := hd
      by_cases ht : t ≤ p.m_time
      swap
      · rw [updateLoop_notdue H fuel hl ht]
        exact hInv
      · have hmemk : id ∈ p.heap.map Prod.fst :=
          hInv.1.2.2.2.1 (t, id) (by rw [hl]; exact List.mem_cons_self _ _)
        have hfind : ∃ e, afind p.heap id = some e := by
          cases hfe : afind p.heap id with
          | none => exact absurd hmemk (afind_eq_none_iff.1 hfe)
          | some e => exact ⟨e, rfl⟩
        obtain ⟨e, he⟩ := hfind
        have hmem : (id, e) ∈ p.heap := mem_of_afind_eq_some he
        rw [updateLoop_due H fuel hl ht he]
        cases hstate : e.state with
        | RUN =>
          by_cases h2 : e.repeats = 1
          · rw [step_run_last H p t id e rest hstate h2 he]
            exact IH _ (inv_step_remove hl hmem hInv
              (by rw [hstate]; intro hc; cases hc))
          · rw [step_run_resched H p t id e rest hstate h2]
            exact IH _ (inv_step_resched hl hmem hInv hstate rfl
              (by simp only; exact hstate))
        | ABORT =>
          rw [step_abort H p t id e rest hstate]
          exact IH _ (inv_step_remove hl hmem hInv
            (by rw [hstate]; intro hc; cases hc))
        | ERASE =>
          rw [step_erase H p t id e rest hstate]
          exact IH _ (inv_step_erase hl hmem hInv hstate)

/-- `Update` preserves the full invariant. -/
theorem Update_inv (H : Host) (diff : Nat) {p : Processor} (hInv : Inv p) :
    Inv (Update H diff p).1 :=
  updateLoop_inv H _ { p with m_time := p.m_time + diff } hInv

/-- `AddEvent` preserves the full invariant provided the handle has no live
entry in `eventMap` (no overwriting add). -/
theorem AddEvent_inv (H : Host) {p : Processor} (r : Int) (mn mx reps : Nat)
    (hInv : Inv p) (hfresh : afind p.eventMap r = none) :
    Inv (AddEvent H p r mn mx reps) := by
  obtain ⟨⟨hs, hnl, hnh, hlh, hhl⟩, ⟨hmk, hmh, hms, hfr⟩, hlive⟩ := hInv
  have hrnm : r ∉ p.eventMap.map Prod.fst := afind_eq_none_iff.1 hfresh
  set n := p.nextId with hn
  have hnid : n ∉ p.heap.map Prod.fst := by
    intro hc
    rcases List.mem_map.1 hc with ⟨x, hx, hxe⟩
    exact absurd (hxe ▸ hfr x hx) (Nat.lt_irrefl n)
  have hnlist : n ∉ p.eventList.map Prod.snd := by
    intro hc
    rcases List.mem_map.1 hc with ⟨a, ha, hae⟩
    exact hnid (hae ▸ hlh a ha)
  rw [AddEvent, AddEventObj, generateDelay]
  simp only
  set d := H.rand p.seed mn mx with hd
  set ev : LuaEvent :=
    { funcRef := r, min := mn, max := mx, repeats := reps, state := .RUN,
      delay := d } with hev
  refine ⟨⟨?_, ?_, ?_, ?_, ?_⟩, ⟨?_, ?_, ?_, ?_⟩, ?_⟩
  · exact pairwise_insertSorted hs
  · refine ((insertSorted_perm _ _ _).map Prod.snd).nodup_iff.2 ?_
    exact List.nodup_cons.2 ⟨hnlist, hnl⟩
  · exact keys_aset_nodup hnh
  · intro a ha
    rcases mem_insertSorted.1 ha with rfl | har
    · exact mem_keys_aset_self _ _ _
    · exact mem_keys_aset_of_mem _ (hlh a har)
  · intro x hx
    rcases (mem_aset_iff hnh).1 hx with ⟨hne, hxm⟩ | rfl
    · rcases List.mem_map.1 (hhl x hxm) with ⟨a, ha, hsnd⟩
      exact hsnd ▸ List.mem_map.2 ⟨a, mem_insertSorted.2 (Or.inr ha), rfl⟩
    · exact List.mem_map.2 ⟨(p.m_time + d, n), mem_insertSorted.2 (Or.inl rfl), rfl⟩
  · exact keys_aset_nodup hmk
  · intro m hm
    rcases (mem_aset_iff hmk).1 hm with ⟨hne, hmm⟩ | rfl
    · exact mem_keys_aset_of_mem _ (hmh m hmm)
    · exact mem_keys_aset_self _ _ _
  · intro m hm x hx hxm
    rcases (mem_aset_iff hmk).1 hm with ⟨hne, hmm⟩ | rfl
    · have hm2 : m.2 ≠ n := by
        intro hc
        exact hnid (hc ▸ hmh m hmm)
      rcases (mem_aset_iff hnh).1 hx with ⟨_, hxm2⟩ | rfl
      · exact hms m hmm x hxm2 hxm
      · exact absurd (show m.2 = n from hxm.symm) hm2
    · rcases (mem_aset_iff hnh).1 hx with ⟨hne2, _⟩ | rfl
      · exact absurd hxm hne2
      · exact ⟨rfl, by intro hc; cases hc⟩
  · intro x hx
    rcases (mem_aset_iff hnh).1 hx with ⟨_, hxm⟩ | rfl
    · exact Nat.lt_succ_of_lt (hfr x hxm)
    · exact Nat.lt_succ_self n
  · intro x hx hxs
    rcases (mem_aset_iff hnh).1 hx with ⟨hne, hxm⟩ | rfl
    · have hin := hlive x hxm hxs
      have hfne : x.2.funcRef ≠ r := by
        intro hc
        exact hrnm (hc ▸ List.mem_map.2 ⟨_, hin, rfl⟩)
      exact mem_aset_of_mem_ne n hin hfne
    · exact mem_aset_self _ _ _

/-- `SetState` preserves the full invariant. -/
theorem SetState_inv {p : Processor} (r : Int) (s : LuaEventState)
    (hInv : Inv p) : Inv (SetState p r s) := by
  obtain ⟨⟨hs0, hnl, hnh, hlh, hhl⟩, ⟨hmk, hmh, hms, hfr⟩, hlive⟩ := hInv
  cases hfm : afind p.eventMap r with
  | none =>
    have heq : SetState p r s =
        if s = .ERASE then { p with eventMap := aerase p.eventMap r } else p := by
      simp only [SetState, hfm]
    rw [heq]
    by_cases hsE : s = .ERASE
    · rw [if_pos hsE]
      rw [aerase_eq_self_of_not_mem (afind_eq_none_iff.1 hfm)]
      exact ⟨⟨hs0, hnl, hnh, hlh, hhl⟩, ⟨hmk, hmh, hms, hfr⟩, hlive⟩
    · rw [if_neg hsE]
      exact ⟨⟨hs0, hnl, hnh, hlh, hhl⟩, ⟨hmk, hmh, hms, hfr⟩, hlive⟩
  | some id =>
    have hmr : (r, id) ∈ p.eventMap := mem_of_afind_eq_some hfm
    have hidk : id ∈ p.heap.map Prod.fst := hmh (r, id) hmr
    have hfind : ∃ e, afind p.heap id = some e := by
      cases hfe : afind p.heap id with
      | none => exact absurd hidk (afind_eq_none_iff.1 hfe)
      | some e => exact ⟨e, rfl⟩
    obtain ⟨e, he⟩ := hfind
    have hmem : (id, e) ∈ p.heap := mem_of_afind_eq_some he
    have hsound := hms (r, id) hmr (id, e) hmem rfl
    have hef : e.funcRef = r := hsound.1
    have henE : e.state ≠ .ERASE := hsound.2
    have hset : e.SetState s = { e with state := s } := SetState_of_not_erase henE s
    have heq : SetState p r s =
        if s = .ERASE then
          { p with heap := aset p.heap id (e.SetState s),
                   eventMap := aerase p.eventMap r }
        else { p with heap := aset p.heap id (e.SetState s) } := by
      simp only [SetState, hfm, he]
    rw [heq]
    have hInvT' : InvT { p with heap := aset p.heap id (e.SetState s) } := by
      refine ⟨hs0, hnl, keys_aset_nodup hnh, ?_, ?_⟩
      · intro a ha
        exact mem_keys_aset_of_mem _ (hlh a ha)
      · intro x hx
        rcases (mem_aset_iff hnh).1 hx with ⟨_, hxm⟩ | rfl
        · exact hhl x hxm
        · exact hhl (id, e) hmem
    by_cases hsE : s = .ERASE
    · rw [if_pos hsE]
      refine ⟨hInvT', ⟨keys_aerase_nodup r hmk, ?_, ?_, ?_⟩, ?_⟩
      · intro m hm
        exact mem_keys_aset_of_mem _ (hmh m (mem_aerase_iff.1 hm).1)
      · intro m hm x hx hxm
        obtain ⟨hmm, hmne⟩ := mem_aerase_iff.1 hm
        have hm2 : m.2 ≠ id := by
          intro hc
          have := (hms m hmm (id, e) hmem hc.symm).1
          exact hmne (by rw [← this, hef])
        rcases (mem_aset_iff hnh).1 hx with ⟨_, hxm2⟩ | rfl
        · exact hms m hmm x hxm2 hxm
        · exact absurd (show m.2 = id from hxm.symm) hm2
      · intro x hx
        rcases (mem_aset_iff hnh).1 hx with ⟨_, hxm⟩ | rfl
        · exact hfr x hxm
        · exact hfr (id, e) hmem
      · intro x hx hxs
        rcases (mem_aset_iff hnh).1 hx with ⟨hne, hxm⟩ | rfl
        · have hin := hlive x hxm hxs
          have hfne : x.2.funcRef ≠ r := by
            intro hc
            exact hne (mem_val_nodup_eq hmk (hc ▸ hin) hmr)
          exact mem_aerase_iff.2 ⟨hin, hfne⟩
        · exfalso
          apply hxs
          show (e.SetState s).state = .ERASE
          rw [hsE]
          exact SetState_state_erase e
    · rw [if_neg hsE]
      refine ⟨hInvT', ⟨hmk, ?_, ?_, ?_⟩, ?_⟩
      · intro m hm
        exact mem_keys_aset_of_mem _ (hmh m hm)
      · intro m hm x hx hxm
        rcases (mem_aset_iff hnh).1 hx with ⟨_, hxm2⟩ | rfl
        · exact hms m hm x hxm2 hxm
        · have hid2 : (id, e).1 = m.2 := hxm
          have := (hms m hm (id, e) hmem hid2).1
          constructor
          · show (e.SetState s).funcRef = m.1
            rw [SetState_funcRef]
            exact this
          · show (e.SetState s).state ≠ .ERASE
            rw [hset]
            simpa using hsE
      · intro x hx
        rcases (mem_aset_iff hnh).1 hx with ⟨_, hxm⟩ | rfl
        · exact hfr x hxm
        · exact hfr (id, e) hmem
      · intro x hx hxs
        rcases (mem_aset_iff hnh).1 hx with ⟨hne, hxm⟩ | rfl
        · exact hlive x hxm hxs
        · show ((e.SetState s).funcRef, id) ∈ p.eventMap
          rw [SetState_funcRef, hef]
          exact hmr

theorem keys_aset_of_found {K V : Type} [DecidableEq K] {l : List (K × V)} {k : K}
    {e : V} (h : afind l k = some e) (v : V) :
    (aset l k v).map Prod.fst = l.map Prod.fst := by
  induction l with
  | nil => simp [afind] at h
  | cons x t ih =>
    obtain ⟨c, d⟩ := x
    rw [afind] at h
    rw [aset]
    by_cases hc : c = k
    · rw [if_pos hc, List.map_cons, List.map_cons, hc]
    · rw [if_neg hc] at h ⊢
      rw [List.map_cons, List.map_cons, ih h]

theorem keys_setStatesAux (s : LuaEventState) :
    ∀ (L : List (Nat × Nat)) (h : List (Nat × LuaEvent)),
      (setStatesAux s L h).map Prod.fst = h.map Prod.fst := by
  intro L
  induction L with
  | nil => intro h; rfl
  | cons a L ih =>
    intro h
    rw [setStatesAux]
    cases hfa : afind h a.2 with
    | none => exact ih h
    | some e => exact (ih _).trans (keys_aset_of_found hfa _)

theorem afind_setStatesAux (s : LuaEventState) :
    ∀ (L : List (Nat × Nat)) (h : List (Nat × LuaEvent)) (id : Nat),
      afind (setStatesAux s L h) id =
        if id ∈ L.map Prod.snd then (afind h id).map (fun e => e.SetState s)
        else afind h id := by
  intro L
  induction L with
  | nil =>
    intro h id
    simp [setStatesAux]
  | cons a L ih =>
    intro h id
    rw [setStatesAux]
    have hstep : afind
        (match afind h a.2 with
         | some e => aset h a.2 (e.SetState s)
         | none => h) id =
        if id = a.2 then (afind h id).map (fun e => e.SetState s)
        else afind h id := by
      cases hfa : afind h a.2 with
      | none =>
        by_cases hid : id = a.2
        · rw [if_pos hid, hid, hfa]
          rfl
        · rw [if_neg hid]
      | some e =>
        by_cases hid : id = a.2
        · rw [if_pos hid, hid, hfa, afind_aset_self]
          rfl
        · rw [if_neg hid, afind_aset_ne _ _ hid]
    rw [ih]
    by_cases hid : id = a.2
    · have hmemc : id ∈ List.map Prod.snd (a :: L) := by
        rw [List.map_cons]
        exact List.mem_cons.2 (Or.inl hid)
      rw [if_pos hmemc]
      by_cases hmem : id ∈ L.map Prod.snd
      · rw [if_pos hmem, hstep, if_pos hid]
        cases hfh : afind h id with
        | none => rfl
        | some e =>
          simp only [Option.map]
          rw [SetState_SetState]
      · rw [if_neg hmem, hstep, if_pos hid]
    · have hcond : id ∈ List.map Prod.snd (a :: L) ↔ id ∈ L.map Prod.snd := by
        rw [List.map_cons, List.mem_cons]
        constructor
        · rintro (h1 | h1)
          · exact absurd h1 hid
          · exact h1
        · exact Or.inr
      by_cases hmem : id ∈ L.map Prod.snd
      · rw [if_pos hmem, hstep, if_neg hid, if_pos (hcond.2 hmem)]
      · rw [if_neg hmem, hstep, if_neg hid, if_neg (fun hc => hmem (hcond.1 hc))]

/-- `SetStates` preserves the full invariant. -/
theorem SetStates_inv {p : Processor} (s : LuaEventState) (hInv : Inv p) :
    Inv (SetStates p s) := by
  obtain ⟨⟨hs0, hnl, hnh, hlh, hhl⟩, ⟨hmk, hmh, hms, hfr⟩, hlive⟩ := hInv
  have hkeys : (setStatesAux s p.eventList p.heap).map Prod.fst = p.heap.map Prod.fst :=
    keys_setStatesAux s p.eventList p.heap
  have hnh' : ((setStatesAux s p.eventList p.heap).map Prod.fst).Nodup := by
    rw [hkeys]
    exact hnh
  have hchar : ∀ id e2, (id, e2) ∈ setStatesAux s p.eventList p.heap ↔
      ∃ e, (id, e) ∈ p.heap ∧ e2 = e.SetState s := by
    intro id e2
    constructor
    · intro hmem
      have hidk : id ∈ p.heap.map Prod.fst := by
        rw [← hkeys]
        exact List.mem_map.2 ⟨(id, e2), hmem, rfl⟩
      obtain ⟨e, he⟩ : ∃ e, afind p.heap id = some e := by
        cases hfe : afind p.heap id with
        | none => exact absurd hidk (afind_eq_none_iff.1 hfe)
        | some e => exact ⟨e, rfl⟩
      have hidl : id ∈ p.eventList.map Prod.snd := hhl (id, e) (mem_of_afind_eq_some he)
      have hf2 := afind_of_mem_nodup hnh' hmem
      rw [afind_setStatesAux, if_pos hidl, he] at hf2
      simp only [Option.map] at hf2
      injection hf2 with hf2
      exact ⟨e, mem_of_afind_eq_some he, hf2.symm⟩
    · rintro ⟨e, hmem, rfl⟩
      have hidl : id ∈ p.eventList.map Prod.snd := hhl (id, e) hmem
      apply mem_of_afind_eq_some
      rw [afind_setStatesAux, if_pos hidl, afind_of_mem_nodup hnh hmem]
      rfl
  have hInvT' : ∀ M' : List (Int × Nat),
      InvT { p with heap := setStatesAux s p.eventList p.heap, eventMap := M' } := by
    intro M'
    refine ⟨hs0, hnl, hnh', ?_, ?_⟩
    · intro a ha
      show a.2 ∈ _
      rw [hkeys]
      exact hlh a ha
    · intro x hx
      obtain ⟨c, d⟩ := x
      obtain ⟨e, hmem, rfl⟩ := (hchar c d).1 hx
      exact hhl (c, e) hmem
  by_cases hsE : s = .ERASE
  · have hgoal : SetStates p s =
        { p with heap := setStatesAux s p.eventList p.heap, eventMap := [] } := by
      simp only [SetStates]
      rw [if_pos hsE]
    rw [hgoal]
    refine ⟨hInvT' [], ⟨?_, ?_, ?_, ?_⟩, ?_⟩
    · exact List.nodup_nil
    · intro m hm
      simp at hm
    · intro m hm
      simp at hm
    · intro x hx
      obtain ⟨c, d⟩ := x
      obtain ⟨e, hmem, rfl⟩ := (hchar c d).1 hx
      exact hfr (c, e) hmem
    · intro x hx hxs
      obtain ⟨c, d⟩ := x
      obtain ⟨e, hmem, rfl⟩ := (hchar c d).1 hx
      exfalso
      apply hxs
      show (e.SetState s).state = .ERASE
      rw [hsE]
      exact SetState_state_erase e
  · have hgoal : SetStates p s =
        { p with heap := setStatesAux s p.eventList p.heap } := by
      simp only [SetStates]
      rw [if_neg hsE]
    rw [hgoal]
    refine ⟨hInvT' p.eventMap, ⟨hmk, ?_, ?_, ?_⟩, ?_⟩
    · intro m hm
      show m.2 ∈ _
      rw [hkeys]
      exact hmh m hm
    · intro m hm x hx hxm
      obtain ⟨c, d⟩ := x
      obtain ⟨e, hmem, rfl⟩ := (hchar c d).1 hx
      have hsound := hms m hm (c, e) hmem hxm
      constructor
      · show (e.SetState s).funcRef = m.1
        rw [SetState_funcRef]
        exact hsound.1
      · show (e.SetState s).state ≠ .ERASE
        rw [SetState_of_not_erase hsound.2]
        simpa using hsE
    · intro x hx
      obtain ⟨c, d⟩ := x
      obtain ⟨e, hmem, rfl⟩ := (hchar c d).1 hx
      exact hfr (c, e) hmem
    · intro x hx hxs
      obtain ⟨c, d⟩ := x
      obtain ⟨e, hmem, rfl⟩ := (hchar c d).1 hx
      by_cases heE : e.state = .ERASE
      · exfalso
        apply hxs
        show (e.SetState s).state = .ERASE
        rw [LuaEvent.SetState, if_pos heE]
        exact heE
      · have hin := hlive (c, e) hmem heE
        show ((e.SetState s).funcRef, c) ∈ p.eventMap
        rw [SetState_funcRef]
        exact hin

/-- Processor states reachable from the empty processor by the exported
operations, where every `AddEvent` uses a handle that has no live entry in
`eventMap` (the spec's §9 open question is resolved by requiring that adds
never overwrite). -/
inductive Reach (H : Host) : Processor → Prop where
  | init : Reach H initProcessor
  | add (p : Processor) (r : Int) (mn mx reps : Nat) :
      Reach H p → afind p.eventMap r = none → Reach H (AddEvent H p r mn mx reps)
  | cancel (p : Processor) (r : Int) (s : LuaEventState) :
      Reach H p → Reach H (SetState p r s)
  | cancelAll (p : Processor) (s : LuaEventState) :
      Reach H p → Reach H (SetStates p s)
  | drain (p : Processor) (diff : Nat) :
      Reach H p → Reach H (Update H diff p).1

theorem Inv_initProcessor : Inv initProcessor := by
  refine ⟨⟨List.Pairwise.nil, List.nodup_nil, List.nodup_nil, ?_, ?_⟩,
    ⟨List.nodup_nil, ?_, ?_, ?_⟩, ?_⟩ <;>
    intro x hx <;> simp [initProcessor] at hx

/-- Every reachable processor satisfies the full invariant. -/
theorem Reach_inv (H : Host) (p : Processor) (h : Reach H p) : Inv p := by
  induction h with
  | init => exact Inv_initProcessor
  | add p r mn mx reps hp hfresh ih => exact AddEvent_inv H r mn mx reps ih hfresh
  | cancel p r s hp ih => exact SetState_inv r s ih
  | cancelAll p s hp ih => exact SetStates_inv s ih
  | drain p diff hp ih => exact Update_inv H diff ih

theorem SetState_min (e : LuaEvent) (s : LuaEventState) :
    (e.SetState s).min = e.min := by
  rw [LuaEvent.SetState]
  by_cases h : e.state = .ERASE
  · rw [if_pos h]
  · rw [if_neg h]

theorem SetState_max (e : LuaEvent) (s : LuaEventState) :
    (e.SetState s).max = e.max := by
  rw [LuaEvent.SetState]
  by_cases h : e.state = .ERASE
  · rw [if_pos h]
  · rw [if_neg h]

/-- Unfolding of `SetState` when the handle resolves to a live event. -/
theorem SetState_found_eq {p : Processor} {r : Int} (s : LuaEventState) {id : Nat}
    {e : LuaEvent} (hfm : afind p.eventMap r = some id)
    (he : afind p.heap id = some e) :
    SetState p r s =
      if s = .ERASE then
        { p with heap := aset p.heap id (e.SetState s),
                 eventMap := aerase p.eventMap r }
      else { p with heap := aset p.heap id (e.SetState s) } := by
  simp only [SetState, hfm, he]

theorem DelayOK_SetState {p : Processor} (r : Int) (s : LuaEventState)
    (hnh : (p.heap.map Prod.fst).Nodup) (hD : DelayOK p) :
    DelayOK (SetState p r s) := by
  cases hfm : afind p.eventMap r with
  | none =>
    have heq : SetState p r s =
        if s = .ERASE then { p with eventMap := aerase p.eventMap r } else p := by
      simp only [SetState, hfm]
    rw [heq]
    by_cases hsE : s = .ERASE
    · rw [if_pos hsE]
      exact hD
    · rw [if_neg hsE]
      exact hD
  | some id =>
    cases hfe : afind p.heap id with
    | none =>
      have heq : SetState p r s =
          if s = .ERASE then { p with eventMap := aerase p.eventMap r } else p := by
        simp only [SetState, hfm, hfe]
      rw [heq]
      by_cases hsE : s = .ERASE
      · rw [if_pos hsE]
        exact hD
      · rw [if_neg hsE]
        exact hD
    | some e =>
      rw [SetState_found_eq s hfm hfe]
      have hda : DelayOK { p with heap := aset p.heap id (e.SetState s) } := by
        intro x hx
        rcases (mem_aset_iff hnh).1 hx with ⟨_, hxm⟩ | rfl
        · exact hD x hxm
        · have := hD (id, e) (mem_of_afind_eq_some hfe)
          simp only at this ⊢
          rw [SetState_min, SetState_max]
          exact this
      by_cases hsE : s = .ERASE
      · rw [if_pos hsE]
        exact hda
      · rw [if_neg hsE]
        exact hda

theorem mem_snd_nodup_eq {l : List (Nat × Nat)} (hnd : (l.map Prod.snd).Nodup)
    {t t' v : Nat} (h : (t, v) ∈ l) (h' : (t', v) ∈ l) : t = t' := by
  induction l with
  | nil => simp at h
  | cons x l ih =>
    rw [List.map_cons, List.nodup_cons] at hnd
    rcases List.mem_cons.1 h with rfl | h1
    · rcases List.mem_cons.1 h' with heq | h2
      · injection heq with ha hb
        exact ha.symm
      · exact absurd (List.mem_map.2 ⟨(t', v), h2, rfl⟩) hnd.1
    · rcases List.mem_cons.1 h' with rfl | h2
      · exact absurd (List.mem_map.2 ⟨(t, v), h1, rfl⟩) hnd.1
      · exact ih hnd.2 h1 h2

theorem SetState_preserves (p : Processor) (r : Int) (s : LuaEventState) :
    (SetState p r s).m_time = p.m_time ∧
    (SetState p r s).eventList = p.eventList ∧
    (SetState p r s).nextId = p.nextId := by
  cases hfm : afind p.eventMap r with
  | none =>
    have heq : SetState p r s =
        if s = .ERASE then { p with eventMap := aerase p.eventMap r } else p := by
      simp only [SetState, hfm]
    rw [heq]
    by_cases hsE : s = .ERASE
    · rw [if_pos hsE]
      exact ⟨rfl, rfl, rfl⟩
    · rw [if_neg hsE]
      exact ⟨rfl, rfl, rfl⟩
  | some id =>
    cases hfe : afind p.heap id with
    | none =>
      have heq : SetState p r s =
          if s = .ERASE then { p with eventMap := aerase p.eventMap r } else p := by
        simp only [SetState, hfm, hfe]
      rw [heq]
      by_cases hsE : s = .ERASE
      · rw [if_pos hsE]
        exact ⟨rfl, rfl, rfl⟩
      · rw [if_neg hsE]
        exact ⟨rfl, rfl, rfl⟩
    | some e =>
      rw [SetState_found_eq s hfm hfe]
      by_cases hsE : s = .ERASE
      · rw [if_pos hsE]
        exact ⟨rfl, rfl, rfl⟩
      · rw [if_neg hsE]
        exact ⟨rfl, rfl, rfl⟩

theorem updateLoop_stop (H : Host) (fuel : Nat) {p : Processor} {t id : Nat}
    {rest : List (Nat × Nat)} (hl : p.eventList = (t, id) :: rest)
    (ht : ¬t ≤ p.m_time) : updateLoop H fuel p = (p, []) := by
  cases fuel with
  | zero => rfl
  | succ fuel => exact updateLoop_notdue H fuel hl ht

theorem drainN_zero (H : Host) (diff : Nat) (p : Processor) :
    drainN H diff 0 p = (p, []) := rfl

theorem drainN_succ (H : Host) (diff n : Nat) (p : Processor) :
    drainN H diff (n + 1) p =
      ((drainN H diff n (Update H diff p).1).1,
       (Update H diff p).2 ++ (drainN H diff n (Update H diff p).1).2) := rfl

/-- The processor state holding exactly one pending fixed-delay event: the
picture after `j` drains of an event added on the empty processor with fixed
delay `d` when `k` firings remain; the next firing is due at `(j+1)*d`. -/
def singleState (r : Int) (d j k : Nat) : Processor :=
  { m_time := j * d, nextId := 1, seed := j + 1,
    heap := [(0, { funcRef := r, min := d, max := d, repeats := k,
                   state := .RUN, delay := d })],
    eventList := [(j * d + d, 0)], eventMap := [(r, 0)] }

theorem rand_fixed {H : Host} (hr : RandLB H) (s d : Nat) : H.rand s d d = d :=
  le_antisymm (hr s d d le_rfl).2 (hr s d d le_rfl).1

theorem AddEvent_singleState (H : Host) (hr : RandLB H) (r : Int) (d N : Nat) :
    AddEvent H initProcessor r d d N = singleState r d 0 N := by
  simp [AddEvent, AddEventObj, generateDelay, initProcessor, singleState,
    insertSorted, aset, rand_fixed hr]

theorem update_singleState (H : Host) (hr : RandLB H) {d : Nat} (hd : 1 ≤ d)
    (r : Int) (j k2 : Nat) :
    Update H d (singleState r d j (k2 + 2)) =
      (singleState r d (j + 1) (k2 + 1), [.invoke 0 r (j * d + d) d (k2 + 2)]) := by
  have hrand : H.rand (j + 1) d d = d := rand_fixed hr _ _
  have h0 : Update H d (singleState r d j (k2 + 2)) =
      updateLoop H (drainFuel
        { m_time := j * d + d, nextId := 1, seed := j + 1,
          heap := [(0, { funcRef := r, min := d, max := d, repeats := k2 + 2,
                         state := .RUN, delay := d })],
          eventList := [(j * d + d, 0)], eventMap := [(r, 0)] })
        { m_time := j * d + d, nextId := 1, seed := j + 1,
          heap := [(0, { funcRef := r, min := d, max := d, repeats := k2 + 2,
                         state := .RUN, delay := d })],
          eventList := [(j * d + d, 0)], eventMap := [(r, 0)] } := rfl
  have hfuel : drainFuel
      { m_time := j * d + d, nextId := 1, seed := j + 1,
        heap := [(0, { funcRef := r, min := d, max := d, repeats := k2 + 2,
                       state := .RUN, delay := d })],
        eventList := [(j * d + d, 0)], eventMap := [(r, 0)] } = (k2 + 2) + 1 := by
    show 1 + (k2 + 2 + 0) = k2 + 2 + 1
    omega
  rw [h0, hfuel]
  rw [@updateLoop_due H (k2 + 2)
      { m_time := j * d + d, nextId := 1, seed := j + 1,
        heap := [(0, { funcRef := r, min := d, max := d, repeats := k2 + 2,
                       state := .RUN, delay := d })],
        eventList := [(j * d + d, 0)], eventMap := [(r, 0)] }
      (j * d + d) 0 []
      { funcRef := r, min := d, max := d, repeats := k2 + 2, state := .RUN, delay := d }
      rfl le_rfl rfl]
  have hP : (step H
      { m_time := j * d + d, nextId := 1, seed := j + 1,
        heap := [(0, { funcRef := r, min := d, max := d, repeats := k2 + 2,
                       state := .RUN, delay := d })],
        eventList := [(j * d + d, 0)], eventMap := [(r, 0)] }
      (j * d + d) 0
      { funcRef := r, min := d, max := d, repeats := k2 + 2, state := .RUN, delay := d }
      []).1 = singleState r d (j + 1) (k2 + 1) := by
    rw [step_run_resched H
        { m_time := j * d + d, nextId := 1, seed := j + 1,
          heap := [(0, { funcRef := r, min := d, max := d, repeats := k2 + 2,
                         state := .RUN, delay := d })],
          eventList := [(j * d + d, 0)], eventMap := [(r, 0)] }
        (j * d + d) 0
        { funcRef := r, min := d, max := d, repeats := k2 + 2, state := .RUN, delay := d }
        [] rfl (by show k2 + 2 ≠ 1; omega)]
    simp [singleState, hrand, aset, aerase, insertSorted, Nat.succ_mul]
  have hE : (step H
      { m_time := j * d + d, nextId := 1, seed := j + 1,
        heap := [(0, { funcRef := r, min := d, max := d, repeats := k2 + 2,
                       state := .RUN, delay := d })],
        eventList := [(j * d + d, 0)], eventMap := [(r, 0)] }
      (j * d + d) 0
      { funcRef := r, min := d, max := d, repeats := k2 + 2, state := .RUN, delay := d }
      []).2 = [.invoke 0 r (j * d + d) d (k2 + 2)] := by
    rw [step_run_resched H
        { m_time := j * d + d, nextId := 1, seed := j + 1,
          heap := [(0, { funcRef := r, min := d, max := d, repeats := k2 + 2,
                         state := .RUN, delay := d })],
          eventList := [(j * d + d, 0)], eventMap := [(r, 0)] }
        (j * d + d) 0
        { funcRef := r, min := d, max := d, repeats := k2 + 2, state := .RUN, delay := d }
        [] rfl (by show k2 + 2 ≠ 1; omega)]
  rw [hP, hE]
  rw [@updateLoop_stop H (k2 + 2) (singleState r d (j + 1) (k2 + 1))
      ((j + 1) * d + d) 0 [] rfl (by simp [singleState]; omega)]
  simp

theorem update_singleState_last (H : Host) (hI : H.initialized = true)
    (hL : H.hasLuaState = true) {d : Nat} (_hd : 1 ≤ d) (r : Int) (j : Nat) :
    Update H d (singleState r d j 1) =
      ({ m_time := (j + 1) * d, nextId := 1, seed := j + 1, heap := [],
         eventList := [], eventMap := [] },
       [.invoke 0 r (j * d + d) d 1, .release 0 r]) := by
  have h0 : Update H d (singleState r d j 1) =
      updateLoop H (drainFuel
        { m_time := j * d + d, nextId := 1, seed := j + 1,
          heap := [(0, { funcRef := r, min := d, max := d, repeats := 1,
                         state := .RUN, delay := d })],
          eventList := [(j * d + d, 0)], eventMap := [(r, 0)] })
        { m_time := j * d + d, nextId := 1, seed := j + 1,
          heap := [(0, { funcRef := r, min := d, max := d, repeats := 1,
                         state := .RUN, delay := d })],
          eventList := [(j * d + d, 0)], eventMap := [(r, 0)] } := rfl
  have hfuel : drainFuel
      { m_time := j * d + d, nextId := 1, seed := j + 1,
        heap := [(0, { funcRef := r, min := d, max := d, repeats := 1,
                       state := .RUN, delay := d })],
        eventList := [(j * d + d, 0)], eventMap := [(r, 0)] } = 1 + 1 := by
    show 1 + (1 + 0) = 1 + 1
    omega
  rw [h0, hfuel]
  rw [@updateLoop_due H 1
      { m_time := j * d + d, nextId := 1, seed := j + 1,
        heap := [(0, { funcRef := r, min := d, max := d, repeats := 1,
                       state := .RUN, delay := d })],
        eventList := [(j * d + d, 0)], eventMap := [(r, 0)] }
      (j * d + d) 0 []
      { funcRef := r, min := d, max := d, repeats := 1, state := .RUN, delay := d }
      rfl le_rfl rfl]
  rw [step_run_last H
      { m_time := j * d + d, nextId := 1, seed := j + 1,
        heap := [(0, { funcRef := r, min := d, max := d, repeats := 1,
                       state := .RUN, delay := d })],
        eventList := [(j * d + d, 0)], eventMap := [(r, 0)] }
      (j * d + d) 0
      { funcRef := r, min := d, max := d, repeats := 1, state := .RUN, delay := d }
      [] rfl rfl rfl]
  rw [if_pos ⟨hI, hL⟩]
  have e3 : aerase [(r, (0 : Nat))] r = [] := by simp [aerase]
  rw [e3]
  rw [updateLoop_nil H 1 rfl]
  simp [Nat.succ_mul, aerase]

theorem update_emptyState (H : Host) (T n sd diff : Nat) :
    Update H diff
        { m_time := T, nextId := n, seed := sd, heap := [], eventList := [],
          eventMap := [] } =
      ({ m_time := T + diff, nextId := n, seed := sd, heap := [], eventList := [],
         eventMap := [] }, []) := rfl

theorem drainN_singleState (H : Host) (hr : RandLB H) (hI : H.initialized = true)
    (hL : H.hasLuaState = true) {d : Nat} (hd : 1 ≤ d) (r : Int) :
    ∀ m j, drainN H d (m + 1) (singleState r d j (m + 1)) =
      ({ m_time := (j + (m + 1)) * d, nextId := 1, seed := j + (m + 1),
         heap := [], eventList := [], eventMap := [] },
       (List.range (m + 1)).map
         (fun i => .invoke 0 r ((j + i) * d + d) d (m + 1 - i)) ++ [.release 0 r]) := by
  intro m
  induction m with
  | zero =>
    intro j
    rw [drainN_succ, update_singleState_last H hI hL hd r j, drainN_zero]
    simp [List.range_succ]
  | succ m ih =>
    intro j
    rw [drainN_succ, update_singleState H hr hd r j m]
    dsimp only
    rw [ih (j + 1)]
    dsimp only
    have harith1 : j + 1 + (m + 1) = j + (m + 1 + 1) := by omega
    rw [harith1]
    refine congrArg _ ?_
    rw [List.singleton_append, ← List.cons_append]
    refine congrArg (· ++ [Effect.release 0 r]) ?_
    conv_rhs => rw [List.range_succ_eq_map, List.map_cons, List.map_map]
    refine congr_arg₂ (· :: ·) rfl ?_
    refine List.map_congr_left ?_
    intro i hi
    simp only [Function.comp, Nat.succ_eq_add_one]
    have h1 : j + 1 + i = j + (i + 1) := by omega
    have h2 : m + 1 - i = m + 1 + 1 - (i + 1) := by omega
    rw [h1, h2]

theorem AddEvent_fields (H : Host) (p : Processor) (r : Int) (mn mx reps : Nat) :
    (AddEvent H p r mn mx reps).m_time = p.m_time ∧
    (AddEvent H p r mn mx reps).nextId = p.nextId + 1 ∧
    (AddEvent H p r mn mx reps).heap =
      aset p.heap p.nextId
        { funcRef := r, min := mn, max := mx, repeats := reps, state := .RUN,
          delay := H.rand p.seed mn mx } ∧
    (AddEvent H p r mn mx reps).eventList =
      insertSorted p.eventList (p.m_time + H.rand p.seed mn mx) p.nextId ∧
    (AddEvent H p r mn mx reps).eventMap = aset p.eventMap r p.nextId :=
  ⟨rfl, rfl, rfl, rfl, rfl⟩

/-- `AddEvent` preserves the structural invariant even when the handle
overwrites an existing mapping; only freshness of the allocated id is
needed. -/
theorem AddEvent_invT (H : Host) {p : Processor} (r : Int) (mn mx reps : Nat)
    (hInvT : InvT p) (hfr : ∀ x ∈ p.heap, x.1 < p.nextId) :
    InvT (AddEvent H p r mn mx reps) := by
  obtain ⟨hs, hnl, hnh, hlh, hhl⟩ := hInvT
  set n := p.nextId with hn
  have hnid : n ∉ p.heap.map Prod.fst := by
    intro hc
    rcases List.mem_map.1 hc with ⟨x, hx, hxe⟩
    exact absurd (hxe ▸ hfr x hx) (Nat.lt_irrefl n)
  have hnlist : n ∉ p.eventList.map Prod.snd := by
    intro hc
    rcases List.mem_map.1 hc with ⟨a, ha, hae⟩
    exact hnid (hae ▸ hlh a ha)
  rw [AddEvent, AddEventObj, generateDelay]
  simp only
  set d := H.rand p.seed mn mx with hd
  refine ⟨?_, ?_, ?_, ?_, ?_⟩
  · exact pairwise_insertSorted hs
  · refine ((insertSorted_perm _ _ _).map Prod.snd).nodup_iff.2 ?_
    exact List.nodup_cons.2 ⟨hnlist, hnl⟩
  · exact keys_aset_nodup hnh
  · intro a ha
    rcases mem_insertSorted.1 ha with rfl | har
    · exact mem_keys_aset_self _ _ _
    · exact mem_keys_aset_of_mem _ (hlh a har)
  · intro x hx
    rcases (mem_aset_iff hnh).1 hx with ⟨hne, hxm⟩ | rfl
    · rcases List.mem_map.1 (hhl x hxm) with ⟨a, ha, hsnd⟩
      exact hsnd ▸ List.mem_map.2 ⟨a, mem_insertSorted.2 (Or.inr ha), rfl⟩
    · exact List.mem_map.2 ⟨(p.m_time + d, n), mem_insertSorted.2 (Or.inl rfl), rfl⟩

/-- `AddEvent` preserves delay sanity when the new bounds are sane. -/
theorem AddEvent_delayOK (H : Host) {p : Processor} (r : Int) {mn mx : Nat}
    (reps : Nat) (hmn : 1 ≤ mn) (hmx : mn ≤ mx)
    (hnh : (p.heap.map Prod.fst).Nodup) (hD : DelayOK p) :
    DelayOK (AddEvent H p r mn mx reps) := by
  rw [AddEvent, AddEventObj, generateDelay]
  simp only
  intro x hx
  rcases (mem_aset_iff hnh).1 hx with ⟨_, hxm⟩ | rfl
  · exact hD x hxm
  · exact ⟨hmn, hmx⟩

theorem AddItemLoop_none (itemid minCount : Nat) :
    ∀ items : List LootItem,
      (∀ y ∈ items, ¬(y.itemid = itemid ∧ y.count < 255)) →
      LuaLoot.AddItemLoop itemid minCount items = none := by
  intro items
  induction items with
  | nil => intro h; rfl
  | cons x xs ih =>
    intro h
    rw [LuaLoot.AddItemLoop, if_neg (h x (List.mem_cons_self _ _))]
    rw [ih fun y hy => h y (List.mem_cons_of_mem _ hy)]
    rfl

theorem AddItemLoop_found (itemid minCount : Nat) :
    ∀ (pre suf : List LootItem) (x : LootItem),
      (∀ y ∈ pre, ¬(y.itemid = itemid ∧ y.count < 255)) →
      x.itemid = itemid → x.count < 255 →
      LuaLoot.AddItemLoop itemid minCount (pre ++ x :: suf) =
        some (pre ++ { x with count := (x.count + minCount) % 256 } :: suf) := by
  intro pre
  induction pre with
  | nil =>
    intro suf x _ hx1 hx2
    rw [List.nil_append, LuaLoot.AddItemLoop, if_pos ⟨hx1, hx2⟩, List.nil_append]
  | cons y pre ih =>
    intro suf x h hx1 hx2
    rw [List.cons_append, LuaLoot.AddItemLoop, if_neg (h y (List.mem_cons_self _ _))]
    rw [ih suf x (fun z hz => h z (List.mem_cons_of_mem _ hz)) hx1 hx2]
    rfl

theorem RemoveItemLoop_false (itemid : Nat) :
    ∀ (c : Nat) (items : List LootItem),
      LuaLoot.RemoveItemLoop itemid false c items =
        items.filter fun x => decide (x.itemid ≠ itemid) := by
  intro c items
  induction items with
  | nil => rfl
  | cons x xs ih =>
    rw [LuaLoot.RemoveItemLoop]
    by_cases hx : x.itemid = itemid
    · rw [if_pos hx, if_neg (by simp)]
      rw [ih, List.filter_cons_of_neg]
      simp [hx]
    · rw [if_neg hx, ih, List.filter_cons_of_pos]
      simp [hx]

theorem RemoveItemLoop_true (itemid : Nat) :
    ∀ (items : List LootItem) (c : Nat),
      LuaLoot.RemoveItemLoop itemid true c items =
        LuaLoot.RemoveCountedSpec itemid c items := by
  intro items
  induction items with
  | nil => intro c; rfl
  | cons x xs ih =>
    intro c
    rw [LuaLoot.RemoveItemLoop, LuaLoot.RemoveCountedSpec]
    by_cases hx : x.itemid = itemid
    · rw [if_pos hx, if_pos hx, if_pos (by decide)]
      by_cases hc : c < x.count
      · rw [if_pos hc, if_neg (by omega)]
      · rw [if_neg hc, if_pos (by omega), ih]
    · rw [if_neg hx, if_neg hx, ih]

instance : DecidableRel keyLe := fun a b => inferInstanceAs (Decidable (a.1 ≤ b.1))

instance (p : Processor) : Decidable (InvT p) := by unfold InvT; infer_instance

instance (p : Processor) : Decidable (InvM p) := by unfold InvM; infer_instance

instance (p : Processor) : Decidable (Live p) := by unfold Live; infer_instance

instance (p : Processor) : Decidable (Inv p) := by unfold Inv; infer_instance

instance (p : Processor) : Decidable (DelayOK p) := by unfold DelayOK; infer_instance

instance (p : Processor) (id : Nat) : Decidable (Removed p id) := by
  unfold Removed; infer_instance

/-- Claim C1, as stated, is false on the code: in the spec's own scenario
(`add(handle 1, delayMin 100, delayMax 100, repeatCount 3)` followed by three
drains of 100), the three callback invocations carry the repeat indicators
`3, 2, 1`, not the claimed `2, 1, 0`, because `Update` passes the repeat
count before its post-decrement (`repeats ? repeats-- : repeats`). -/
theorem claim_C1_counterexample :
    invokeReps (drainN H0 100 3 (AddEvent H0 initProcessor 1 100 100 3)).2 ≠
      [2, 1, 0] ∧
    invokeReps (drainN H0 100 3 (AddEvent H0 initProcessor 1 100 100 3)).2 =
      [3, 2, 1] := by decide

/-- Claim C1 (amended): for every event added on an empty processor with a
fixed positive delay `d` and repeat count `N > 1`, the `N` successive drains
of `d` each invoke the callback exactly once, with repeat indicators
`N, N-1, ..., 1` (the pre-decrement values) in that order and due times
`d, 2d, ..., Nd`; after the `N`-th firing the event is removed, its reference
is released exactly once, and a further drain produces nothing at all. -/
theorem claim_C1 (H : Host) (hr : RandLB H) (hI : H.initialized = true)
    (hL : H.hasLuaState = true) (r : Int) (d N : Nat) (hd : 1 ≤ d)
    (hN : 1 < N) :
    (drainN H d N (AddEvent H initProcessor r d d N)).2 =
      (List.range N).map (fun j => .invoke 0 r (j * d + d) d (N - j)) ++
        [.release 0 r] ∧
    (drainN H d N (AddEvent H initProcessor r d d N)).1.heap = [] ∧
    (drainN H d N (AddEvent H initProcessor r d d N)).1.eventList = [] ∧
    (Update H d (drainN H d N (AddEvent H initProcessor r d d N)).1).2 = [] := by
  obtain ⟨m, rfl⟩ : ∃ m, N = m + 1 := ⟨N - 1, by omega⟩
  rw [AddEvent_singleState H hr r d (m + 1),
    drainN_singleState H hr hI hL hd r m 0]
  refine ⟨?_, rfl, rfl, rfl⟩
  simp

/-- Witness for C1 at the spec's concrete scenario. -/
theorem claim_C1_witness :
    (drainN H0 100 3 (AddEvent H0 initProcessor 1 100 100 3)).2 =
      (List.range 3).map (fun j => .invoke 0 1 (j * 100 + 100) 100 (3 - j)) ++
        [.release 0 1] ∧
    (drainN H0 100 3 (AddEvent H0 initProcessor 1 100 100 3)).1.heap = [] ∧
    (drainN H0 100 3 (AddEvent H0 initProcessor 1 100 100 3)).1.eventList = [] ∧
    (Update H0 100 (drainN H0 100 3 (AddEvent H0 initProcessor 1 100 100 3)).1).2 =
      [] :=
  claim_C1 H0 (fun _ _ _ h => ⟨le_rfl, h⟩) rfl rfl 1 100 3 (by decide) (by decide)

/-- Claim C8: for every queue state and every handle not present in the
handle index, `SetState(handle, state)` is a complete no-op — the processor
(its event list, handle index, heap and clock) is returned unchanged, and no
error arises. -/
theorem claim_C8 (p : Processor) (r : Int) (s : LuaEventState)
    (habs : afind p.eventMap r = none) : SetState p r s = p := by
  have heq : SetState p r s =
      if s = .ERASE then { p with eventMap := aerase p.eventMap r } else p := by
    simp only [SetState, habs]
  rw [heq]
  by_cases hsE : s = .ERASE
  · rw [if_pos hsE, aerase_eq_self_of_not_mem (afind_eq_none_iff.1 habs)]
  · rw [if_neg hsE]

/-- Witness for C8: cancelling the unknown handle 2 on a one-event queue. -/
theorem claim_C8_witness :
    SetState (AddEvent H0 initProcessor 1 5 5 1) 2 .ERASE =
      AddEvent H0 initProcessor 1 5 5 1 :=
  claim_C8 (AddEvent H0 initProcessor 1 5 5 1) 2 .ERASE (by decide)

/-- Claim C6: during drain, a `RUN` event not on its final repetition
(`repeats != 1`) is rescheduled strictly before its callback is invoked: the
processor state paired with the emitted `OnTimedEvent` call (the state the
callback runs in) already has the delay recomputed, the entry reinserted into
the event list keyed by `clock + computedDelay`, and the handle remapped to
the event, so a callback cancelling or inspecting its own handle observes the
rescheduled entry. -/
theorem claim_C6 (H : Host) (p : Processor) (t id : Nat) (e : LuaEvent)
    (rest : List (Nat × Nat)) (hRUN : e.state = .RUN) (hrep : e.repeats ≠ 1) :
    (step H p t id e rest).2 = [.invoke id e.funcRef t e.delay e.repeats] ∧
    (step H p t id e rest).1.eventList =
      insertSorted rest (p.m_time + H.rand p.seed e.min e.max) id ∧
    (p.m_time + H.rand p.seed e.min e.max, id) ∈ (step H p t id e rest).1.eventList ∧
    afind (step H p t id e rest).1.eventMap e.funcRef = some id ∧
    afind (step H p t id e rest).1.heap id =
      some { e with delay := H.rand p.seed e.min e.max,
                    repeats := e.repeats - 1 } := by
  rw [step_run_resched H p t id e rest hRUN hrep]
  refine ⟨rfl, rfl, mem_insertSorted.2 (Or.inl rfl), afind_aset_self _ _ _,
    afind_aset_self _ _ _⟩

/-- Witness for C6 on a concrete popped entry. -/
theorem claim_C6_witness :
    (step H0 initProcessor 0 0
        { funcRef := 1, min := 5, max := 5, repeats := 3, state := .RUN,
          delay := 5 } []).2 = [.invoke 0 1 0 5 3] ∧
    (step H0 initProcessor 0 0
        { funcRef := 1, min := 5, max := 5, repeats := 3, state := .RUN,
          delay := 5 } []).1.eventList = [(5, 0)] ∧
    ((5 : Nat), (0 : Nat)) ∈ (step H0 initProcessor 0 0
        { funcRef := 1, min := 5, max := 5, repeats := 3, state := .RUN,
          delay := 5 } []).1.eventList ∧
    afind (step H0 initProcessor 0 0
        { funcRef := 1, min := 5, max := 5, repeats := 3, state := .RUN,
          delay := 5 } []).1.eventMap 1 = some 0 ∧
    afind (step H0 initProcessor 0 0
        { funcRef := 1, min := 5, max := 5, repeats := 3, state := .RUN,
          delay := 5 } []).1.heap 0 =
      some { funcRef := 1, min := 5, max := 5, repeats := 2, state := .RUN,
             delay := 5 } :=
  claim_C6 H0 initProcessor 0 0
    { funcRef := 1, min := 5, max := 5, repeats := 3, state := .RUN, delay := 5 }
    [] rfl (by decide)

/-- Claim C4: cancelling a live event with `ERASE` removes its handle from
the handle index immediately, makes a repeated erase call a no-op (erase is
idempotent), and a subsequent drain neither invokes its callback nor releases
its reference — it produces no effect at all for that event — and removes the
event when its due time is covered. -/
theorem claim_C4 (H : Host) (hr : RandLB H) (p : Processor) (hInv : Inv p)
    (hD : DelayOK p) (r : Int) (id : Nat) (e : LuaEvent)
    (hfm : afind p.eventMap r = some id) (he : afind p.heap id = some e)
    (diff : Nat) :
    afind (SetState p r .ERASE).eventMap r = none ∧
    SetState (SetState p r .ERASE) r .ERASE = SetState p r .ERASE ∧
    (Update H diff (SetState p r .ERASE)).2.filter (hasId id) = [] ∧
    (∀ t, (t, id) ∈ p.eventList → t ≤ p.m_time + diff →
      Removed (Update H diff (SetState p r .ERASE)).1 id) := by
  have heq : SetState p r .ERASE =
      { p with heap := aset p.heap id (e.SetState .ERASE),
               eventMap := aerase p.eventMap r } := by
    rw [SetState_found_eq .ERASE hfm he, if_pos rfl]
  have hInvQ : Inv (SetState p r .ERASE) := SetState_inv r .ERASE hInv
  have hDQ : DelayOK (SetState p r .ERASE) :=
    DelayOK_SetState r .ERASE hInv.1.2.2.1 hD
  obtain ⟨h1, h2, h3, h4, h5, h6, h7, h8, h9, h10, h11⟩ :=
    Update_drainSpec H hr diff _ hInvQ.1 hDQ
  refine ⟨?_, ?_, ?_, ?_⟩
  · rw [heq]
    exact afind_aerase_self _ _
  · rw [heq]
    have habs : afind (aerase p.eventMap r) r = none := afind_aerase_self _ _
    simp [SetState, habs,
      aerase_eq_self_of_not_mem (not_mem_keys_aerase_self p.eventMap r)]
  · by_cases hdu : id ∈ dueIds
        { SetState p r .ERASE with m_time := (SetState p r .ERASE).m_time + diff }
    · rcases List.mem_map.1 hdu with ⟨a, haf, ha2⟩
      have hamem := (List.mem_filter.1 haf).1
      have hat := of_decide_eq_true (List.mem_filter.1 haf).2
      have hheap : (a.2, e.SetState .ERASE) ∈
          ({ SetState p r .ERASE with
             m_time := (SetState p r .ERASE).m_time + diff }).heap := by
        rw [ha2, heq]
        exact mem_aset_self _ _ _
      have hPE := h8 a hamem hat (e.SetState .ERASE) hheap
      have hE := hPE.2.2 (SetState_state_erase e)
      rw [ha2] at hE
      exact hE.1
    · exact h7 id hdu
  · intro t hmem hdue
    have hPE := h8 (t, id) (by rw [heq]; exact hmem) (by rw [heq]; exact hdue)
      (e.SetState .ERASE) (by rw [heq]; exact mem_aset_self _ _ _)
    exact (hPE.2.2 (SetState_state_erase e)).2

/-- Witness for C4 on a one-event queue. -/
theorem claim_C4_witness :
    afind (SetState (AddEvent H0 initProcessor 1 5 5 1) 1 .ERASE).eventMap 1 =
      none ∧
    SetState (SetState (AddEvent H0 initProcessor 1 5 5 1) 1 .ERASE) 1 .ERASE =
      SetState (AddEvent H0 initProcessor 1 5 5 1) 1 .ERASE ∧
    (Update H0 10 (SetState (AddEvent H0 initProcessor 1 5 5 1) 1 .ERASE)).2.filter
      (hasId 0) = [] ∧
    (∀ t, (t, 0) ∈ (AddEvent H0 initProcessor 1 5 5 1).eventList →
      t ≤ (AddEvent H0 initProcessor 1 5 5 1).m_time + 10 →
      Removed
        (Update H0 10 (SetState (AddEvent H0 initProcessor 1 5 5 1) 1 .ERASE)).1
        0) :=
  claim_C4 H0 (fun _ _ _ h => ⟨le_rfl, h⟩) (AddEvent H0 initProcessor 1 5 5 1)
    (by decide) (by decide) 1 0
    { funcRef := 1, min := 5, max := 5, repeats := 1, state := .RUN, delay := 5 }
    (by decide) (by decide) 10

/-- Claim C5: cancelling a scheduled event with `ABORT` before its due time
prevents any callback invocation for it, and the next drain covering its due
time releases its callback reference exactly once (the host being initialized
with a live interpreter state) and removes the event. -/
theorem claim_C5 (H : Host) (hr : RandLB H) (hI : H.initialized = true)
    (hL : H.hasLuaState = true) (p : Processor) (hInv : Inv p) (hD : DelayOK p)
    (r : Int) (id t : Nat) (e : LuaEvent)
    (hfm : afind p.eventMap r = some id) (he : afind p.heap id = some e)
    (hmem : (t, id) ∈ p.eventList) (diff : Nat) (_hbefore : p.m_time < t)
    (hdue : t ≤ p.m_time + diff) :
    (Update H diff (SetState p r .ABORT)).2.filter (isInvokeOf id) = [] ∧
    (Update H diff (SetState p r .ABORT)).2.filter (isReleaseOf id) =
      [.release id e.funcRef] ∧
    Removed (Update H diff (SetState p r .ABORT)).1 id := by
  have hne : e.state ≠ .ERASE :=
    (hInv.2.1.2.2.1 (r, id) (mem_of_afind_eq_some hfm) (id, e)
      (mem_of_afind_eq_some he) rfl).2
  have heq : SetState p r .ABORT =
      { p with heap := aset p.heap id (e.SetState .ABORT) } := by
    rw [SetState_found_eq .ABORT hfm he, if_neg (by decide)]
  have hst : (e.SetState .ABORT).state = .ABORT := by
    rw [SetState_of_not_erase hne]
  have hInvQ : Inv (SetState p r .ABORT) := SetState_inv r .ABORT hInv
  have hDQ : DelayOK (SetState p r .ABORT) :=
    DelayOK_SetState r .ABORT hInv.1.2.2.1 hD
  obtain ⟨h1, h2, h3, h4, h5, h6, h7, h8, h9, h10, h11⟩ :=
    Update_drainSpec H hr diff _ hInvQ.1 hDQ
  have hPE := h8 (t, id) (by rw [heq]; exact hmem) (by rw [heq]; exact hdue)
    (e.SetState .ABORT) (by rw [heq]; exact mem_aset_self _ _ _)
  have hA := hPE.2.1 hst
  refine ⟨hA.1, ?_, hA.2.2⟩
  rw [hA.2.1, if_pos ⟨hI, hL⟩, SetState_funcRef]

/-- Witness for C5 on a one-event queue cancelled at clock 0, due time 5. -/
theorem claim_C5_witness :
    (Update H0 10 (SetState (AddEvent H0 initProcessor 1 5 5 3) 1 .ABORT)).2.filter
      (isInvokeOf 0) = [] ∧
    (Update H0 10 (SetState (AddEvent H0 initProcessor 1 5 5 3) 1 .ABORT)).2.filter
      (isReleaseOf 0) = [.release 0 1] ∧
    Removed
      (Update H0 10 (SetState (AddEvent H0 initProcessor 1 5 5 3) 1 .ABORT)).1
      0 :=
  claim_C5 H0 (fun _ _ _ h => ⟨le_rfl, h⟩) rfl rfl
    (AddEvent H0 initProcessor 1 5 5 3) (by decide) (by decide) 1 0 5
    { funcRef := 1, min := 5, max := 5, repeats := 3, state := .RUN, delay := 5 }
    (by decide) (by decide) (by decide) 10 (by decide) (by decide)

/-- Claim C3, as stated, is false on the code: an event added with delay
bounds `[0, 0]` and repeat count 2 fires twice at the same due time 0 within
one `drain(0)` — the reschedule lands at `clock + 0`, which is immediately due
again — contradicting the claimed "no event fires more than once per due
time". -/
theorem claim_C3_counterexample :
    (Update H0 0 (AddEvent H0 initProcessor 1 0 0 2)).2 =
      [.invoke 0 1 0 0 2, .invoke 0 1 0 0 1, .release 0 1] ∧
    ((Update H0 0 (AddEvent H0 initProcessor 1 0 0 2)).2.filter
      (isInvokeOf 0)).length = 2 ∧
    invokeDues (Update H0 0 (AddEvent H0 initProcessor 1 0 0 2)).2 = [0, 0] := by
  decide

/-- Claim C3 (amended): provided every live event's delay lower bound is
positive, a drain first advances the clock by the elapsed time and then
processes, earliest first, exactly the entries due at or before the resulting
clock: each fires or is discarded exactly once per its state, entries not yet
due survive untouched, no entry remains due afterwards, and every emitted
firing carries a due time at or before the clock, in nondecreasing order
(`DrainSpec` spells out each guarantee). -/
theorem claim_C3 (H : Host) (hr : RandLB H) (p : Processor) (hInvT : InvT p)
    (hD : DelayOK p) (diff : Nat) :
    (Update H diff p).1.m_time = p.m_time + diff ∧
    DrainSpec H { p with m_time := p.m_time + diff } (Update H diff p).1
      (Update H diff p).2 :=
  ⟨(Update_drainSpec H hr diff p hInvT hD).1, Update_drainSpec H hr diff p hInvT hD⟩

/-- Witness for C3 on a one-event queue drained past its due time. -/
theorem claim_C3_witness :
    (Update H0 5 (AddEvent H0 initProcessor 1 5 5 1)).1.m_time =
      (AddEvent H0 initProcessor 1 5 5 1).m_time + 5 ∧
    DrainSpec H0
      { AddEvent H0 initProcessor 1 5 5 1 with
        m_time := (AddEvent H0 initProcessor 1 5 5 1).m_time + 5 }
      (Update H0 5 (AddEvent H0 initProcessor 1 5 5 1)).1
      (Update H0 5 (AddEvent H0 initProcessor 1 5 5 1)).2 :=
  claim_C3 H0 (fun _ _ _ h => ⟨le_rfl, h⟩) (AddEvent H0 initProcessor 1 5 5 1)
    (by decide) (by decide) 5

/-- Claim C2, as stated, is false on the code: after adding handle 1 twice,
the prior event (ghost id 0), orphaned in the time index, is not skipped at
its own due time — the drain pops it, finds its object in state `RUN`, and
invokes its callback. -/
theorem claim_C2_counterexample :
    (Update H0 12 (AddEvent H0 (AddEvent H0 initProcessor 1 5 5 2) 1 7 7 1)).2.filter
      (isInvokeOf 0) = [.invoke 0 1 5 5 2] := by
  decide

/-- Claim C2 (amended): adding a handle that already has a live entry does
overwrite the handle index with the new event (a genuinely different event
object), and the prior event is left orphaned in the time index — but it is
not skipped: a drain covering its due time invokes its callback exactly once
like any `RUN` event. -/
theorem claim_C2 (H : Host) (hr : RandLB H) (p : Processor) (hInv : Inv p)
    (hD : DelayOK p) (r : Int) (oldId : Nat)
    (_hold : afind p.eventMap r = some oldId) (mn mx reps : Nat)
    (hmn : 1 ≤ mn) (hmx : mn ≤ mx) (diff t : Nat) (e : LuaEvent)
    (hmemL : (t, oldId) ∈ p.eventList) (hmemH : (oldId, e) ∈ p.heap)
    (hRUN : e.state = .RUN) (hdue : t ≤ p.m_time + diff) :
    afind (AddEvent H p r mn mx reps).eventMap r = some p.nextId ∧
    oldId ≠ p.nextId ∧
    (t, oldId) ∈ (AddEvent H p r mn mx reps).eventList ∧
    (Update H diff (AddEvent H p r mn mx reps)).2.filter (isInvokeOf oldId) =
      [.invoke oldId e.funcRef t e.delay e.repeats] := by
  obtain ⟨hInvT, hInvM, hLive⟩ := hInv
  have hlt : oldId < p.nextId := hInvM.2.2.2 (oldId, e) hmemH
  have hne : oldId ≠ p.nextId := Nat.ne_of_lt hlt
  have hfields := AddEvent_fields H p r mn mx reps
  refine ⟨?_, hne, ?_, ?_⟩
  · rw [hfields.2.2.2.2]
    exact afind_aset_self _ _ _
  · rw [hfields.2.2.2.1]
    exact mem_insertSorted.2 (Or.inr hmemL)
  · have hInvTQ : InvT (AddEvent H p r mn mx reps) :=
      AddEvent_invT H r mn mx reps hInvT hInvM.2.2.2
    have hDQ : DelayOK (AddEvent H p r mn mx reps) :=
      AddEvent_delayOK H r reps hmn hmx hInvT.2.2.1 hD
    obtain ⟨h1, h2, h3, h4, h5, h6, h7, h8, h9, h10, h11⟩ :=
      Update_drainSpec H hr diff _ hInvTQ hDQ
    have hPE := h8 (t, oldId) (mem_insertSorted.2 (Or.inr hmemL)) hdue e
      (mem_aset_of_mem_ne _ hmemH hne)
    exact (hPE.1 hRUN).1

/-- Witness for C2: handle 1 added at delay 5 then overwritten at delay 7;
the drain to clock 12 fires the orphaned first event. -/
theorem claim_C2_witness :
    afind (AddEvent H0 (AddEvent H0 initProcessor 1 5 5 2) 1 7 7 1).eventMap 1 =
      some 1 ∧
    (0 : Nat) ≠ 1 ∧
    ((5 : Nat), (0 : Nat)) ∈
      (AddEvent H0 (AddEvent H0 initProcessor 1 5 5 2) 1 7 7 1).eventList ∧
    (Update H0 12 (AddEvent H0 (AddEvent H0 initProcessor 1 5 5 2) 1 7 7 1)).2.filter
      (isInvokeOf 0) = [.invoke 0 1 5 5 2] :=
  claim_C2 H0 (fun _ _ _ h => ⟨le_rfl, h⟩) (AddEvent H0 initProcessor 1 5 5 2)
    (by decide) (by decide) 1 0 (by decide) 7 7 1 (by decide) (by decide) 12 5
    { funcRef := 1, min := 5, max := 5, repeats := 2, state := .RUN, delay := 5 }
    (by decide) (by decide) rfl (by decide)

/-- Claim C7, as stated, is false on the code: after the complete add that
overwrites handle 1 (no drain in progress), the prior event is reachable from
the time index, is not in state `ERASE`, yet is not reachable from the handle
index — the byTime-to-byHandle direction of the invariant fails. -/
theorem claim_C7_counterexample :
    (5, 0) ∈ (AddEvent H0 (AddEvent H0 initProcessor 1 5 5 2) 1 7 7 1).eventList ∧
    afind (AddEvent H0 (AddEvent H0 initProcessor 1 5 5 2) 1 7 7 1).heap 0 =
      some { funcRef := 1, min := 5, max := 5, repeats := 2, state := .RUN,
             delay := 5 } ∧
    ¬ Live (AddEvent H0 (AddEvent H0 initProcessor 1 5 5 2) 1 7 7 1) := by
  decide

/-- Claim C7 (amended): after every complete add, cancel (single or global)
or drain — provided every add in the history used a handle not currently
mapped (the overwriting add of the counterexample is the one exception the
claim must carve out) — every event reachable from the time index whose state
is not `ERASE` is reachable from the handle index under its own handle, and
every event reachable from the handle index is reachable from the time
index. -/
theorem claim_C7 (H : Host) (p : Processor) (hR : Reach H p) :
    (∀ a ∈ p.eventList, ∀ e, (a.2, e) ∈ p.heap → e.state ≠ .ERASE →
      (e.funcRef, a.2) ∈ p.eventMap) ∧
    (∀ m ∈ p.eventMap, ∃ a ∈ p.eventList, a.2 = m.2) := by
  obtain ⟨hInvT, hInvM, hLive⟩ := Reach_inv H p hR
  refine ⟨?_, ?_⟩
  · intro a _ e he hne
    exact hLive (a.2, e) he hne
  · intro m hm
    rcases List.mem_map.1 (hInvM.2.1 m hm) with ⟨x, hx, hxe⟩
    rcases List.mem_map.1 (hInvT.2.2.2.2 x hx) with ⟨a, ha, hae⟩
    exact ⟨a, ha, by rw [hae, hxe]⟩

/-- Witness for C7 after one fresh add. -/
theorem claim_C7_witness :
    (∀ a ∈ (AddEvent H0 initProcessor 1 5 5 1).eventList, ∀ e,
      (a.2, e) ∈ (AddEvent H0 initProcessor 1 5 5 1).heap →
      e.state ≠ .ERASE →
      (e.funcRef, a.2) ∈ (AddEvent H0 initProcessor 1 5 5 1).eventMap) ∧
    (∀ m ∈ (AddEvent H0 initProcessor 1 5 5 1).eventMap,
      ∃ a ∈ (AddEvent H0 initProcessor 1 5 5 1).eventList, a.2 = m.2) :=
  claim_C7 H0 (AddEvent H0 initProcessor 1 5 5 1)
    (Reach.add initProcessor 1 5 5 1 Reach.init rfl)

/-- Claim C9: when the loot already holds an entry with the requested item id
and a count below 255, `AddItem` bumps the first such entry's 8-bit count by
`minCount` modulo 256 in place — list length, order and all other fields
unchanged, `maxCount`, `chance`, `lootMode` and `needsQuest` ignored, no host
append — and only when no such entry exists does it hand the host a freshly
built `LootStoreItem(itemid, 0, chance, needsQuest, lootMode, 0, minCount,
maxCount)` with the list untouched. -/
theorem claim_C9 {α : Type} (itemid mn mx lm : Nat) (c : α) (nq : Bool) :
    (∀ (pre suf : List LootItem) (x : LootItem),
      (∀ y ∈ pre, ¬(y.itemid = itemid ∧ y.count < 255)) →
      x.itemid = itemid → x.count < 255 →
      LuaLoot.AddItem (pre ++ x :: suf) itemid mn mx c lm nq =
        (pre ++ { x with count := (x.count + mn) % 256 } :: suf, none)) ∧
    (∀ items : List LootItem,
      (∀ y ∈ items, ¬(y.itemid = itemid ∧ y.count < 255)) →
      LuaLoot.AddItem items itemid mn mx c lm nq =
        (items, some { itemid := itemid, reference := 0, chance := c,
                       needs_quest := nq, lootmode := lm, groupid := 0,
                       mincount := mn, maxcount := mx })) := by
  constructor
  · intro pre suf x hpre hx1 hx2
    simp only [LuaLoot.AddItem, AddItemLoop_found itemid mn pre suf x hpre hx1 hx2]
  · intro items h
    simp only [LuaLoot.AddItem, AddItemLoop_none itemid mn items h]

/-- Witness for C9: a near-wrap bump (250 + 20 = 270 ≡ 14 mod 256) and a
no-match append. -/
theorem claim_C9_witness :
    LuaLoot.AddItem
        [{ itemid := 10, count := 250, itemIndex := 0, needs_quest := false,
           is_looted := false }] 10 20 30 (5 : Nat) 2 true =
      ([{ itemid := 10, count := 14, itemIndex := 0, needs_quest := false,
          is_looted := false }], none) ∧
    LuaLoot.AddItem
        [{ itemid := 7, count := 1, itemIndex := 0, needs_quest := false,
           is_looted := false }] 10 20 30 (5 : Nat) 2 true =
      ([{ itemid := 7, count := 1, itemIndex := 0, needs_quest := false,
          is_looted := false }],
       some { itemid := 10, reference := 0, chance := 5, needs_quest := true,
              lootmode := 2, groupid := 0, mincount := 20, maxcount := 30 }) :=
  ⟨(claim_C9 10 20 30 2 (5 : Nat) true).1 [] []
      { itemid := 10, count := 250, itemIndex := 0, needs_quest := false,
        is_looted := false } (by decide) rfl (by decide),
   (claim_C9 10 20 30 2 (5 : Nat) true).2
      [{ itemid := 7, count := 1, itemIndex := 0, needs_quest := false,
         is_looted := false }] (by decide)⟩

/-- Claim C10: with `isCountSpecified = false`, `RemoveItem` erases every
entry matching the item id and keeps all others verbatim; with
`isCountSpecified = true` it behaves exactly as the claim describes — erase
matching entries in list order while their count is at most the remaining
amount (the remainder shrinking by each erased count), reduce the first
matching entry holding strictly more than the remainder and stop there, and
never touch entries with a different item id (`RemoveCountedSpec` restates
that description; the equality is the refinement). -/
theorem claim_C10 (items : List LootItem) (itemid count : Nat) :
    LuaLoot.RemoveItem items itemid false count =
      items.filter (fun x => decide (x.itemid ≠ itemid)) ∧
    LuaLoot.RemoveItem items itemid true count =
      LuaLoot.RemoveCountedSpec itemid count items :=
  ⟨RemoveItemLoop_false itemid 0 items, RemoveItemLoop_true itemid items count⟩

end ModEluna
